import Mathlib

/-!
# prisma-gostruct-migration: schema-to-struct translation

A shallow embedding of `utils/utils.go` and `utils/types.go`.

Go strings are modelled as lists of code points (`Str`).  The functions of the Go
standard library that the program calls (`strings.Contains`, `strings.Replace`,
`strings.Title`, `strings.TrimSpace`, `regexp.FindStringSubmatch` for the three fixed
patterns, `fmt.Sprintf` with `%s` verbs) are modelled by the definitions of the first
part; the functions of the repository follow, under their own names.
-/

set_option autoImplicit false
set_option maxRecDepth 100000

namespace PrismaGoStruct

/-! ## Strings -/

/-- A Go string, as the list of its code points. -/
abbrev Str := List Char

/-- Go `strings.HasPrefix(s, p)`. -/
def hasPrefix (s p : Str) : Bool := p.isPrefixOf s

/-- Go `strings.Contains(s, sub)`: `sub` occurs at some position of `s`. -/
def contains : Str → Str → Bool
  | [], sub => sub.isEmpty
  | c :: cs, sub => hasPrefix (c :: cs) sub || contains cs sub

/-- Go `strings.Replace(s, old, new, 1)`: the first occurrence of `old` is replaced. -/
def replaceFirst : Str → Str → Str → Str
  | [], old, new => if old.isEmpty then new else []
  | c :: cs, old, new =>
    if hasPrefix (c :: cs) old then new ++ (c :: cs).drop old.length
    else c :: replaceFirst cs old new

/-! ## Type mapper (`utils.go`, lines 118-149 and 211-226) -/

/-- Source `transformArrayNotation`: moves the first `[]` to the front. -/
def transformArrayNotation (s : Str) : Str :=
  if contains s "[]".toList then
    "[]".toList ++ replaceFirst s "[]".toList []
  else s

/-- Source `transformQuestionMarks`: removes the first `?` and reports whether there was one. -/
def transformQuestionMarks (s : Str) : Str × Bool :=
  if contains s "?".toList then (replaceFirst s "?".toList [], true)
  else (s, false)

/-- Source `mapPrismaTypeToGo`: the `switch` over the marker-free type, then the array
notation, then the nullable wrapper for built-in types. -/
def mapPrismaTypeToGo (prismaType : Str) : Str × Bool :=
  let (prismaType, containsMark) := transformQuestionMarks prismaType
  let (fieldType, isDefaultType) : Str × Bool :=
    if prismaType = "Int".toList then ("int".toList, true)
    else if prismaType = "String".toList then ("string".toList, true)
    else if prismaType = "Boolean".toList then ("bool".toList, true)
    else if prismaType = "Float".toList then ("float64".toList, true)
    else if prismaType = "DateTime".toList then ("time.Time".toList, true)
    else if prismaType = "Json".toList then ("interface\x7b\x7d".toList, true)
    else (prismaType, false)
  let fieldType := transformArrayNotation fieldType
  if containsMark && isDefaultType then
    ("*".toList ++ fieldType, isDefaultType)
  else
    (fieldType, isDefaultType)

/-- The fixed table of scalar mappings: schema type and target type. -/
def scalarTable : List (Str × Str) :=
  [ ("Int".toList, "int".toList),
    ("String".toList, "string".toList),
    ("Boolean".toList, "bool".toList),
    ("Float".toList, "float64".toList),
    ("DateTime".toList, "time.Time".toList),
    ("Json".toList, "interface\x7b\x7d".toList) ]

/-! ## Unicode tables

The program calls `unicode.IsUpper`, `unicode.IsSpace`, `unicode.IsLetter`,
`unicode.IsDigit` and `unicode.ToTitle` (the last four through `strings.Title` and
`strings.TrimSpace`).  Their tables belong to the Go library, not to the repository, so
they are a parameter of the embedding; what is fixed is their value on ASCII. -/

/-- Upper-casing of an ASCII lower-case letter; every other code point is unchanged. -/
def asciiToUpper (c : Char) : Char :=
  if 'a' ≤ c ∧ c ≤ 'z' then Char.ofNat (c.toNat - 32) else c

/-- The ASCII code points that Go classifies as white space. -/
def asciiIsSpace (c : Char) : Bool :=
  c = '\t' || c = '\n' || c = Char.ofNat 11 || c = Char.ofNat 12 || c = '\r' || c = ' '

/-- The ASCII upper-case letters. -/
def asciiIsUpper (c : Char) : Bool := decide ('A' ≤ c ∧ c ≤ 'Z')

/-- The tables of Go package `unicode` that the program consults, with their ASCII rows. -/
structure UnicodeTables where
  isLetter : Char → Bool
  isDigit : Char → Bool
  isSpace : Char → Bool
  isUpper : Char → Bool
  toTitle : Char → Char
  isSpace_ascii : ∀ c : Char, c.toNat ≤ 127 → isSpace c = asciiIsSpace c
  isUpper_ascii : ∀ c : Char, c.toNat ≤ 127 → isUpper c = asciiIsUpper c
  toTitle_ascii : ∀ c : Char, c.toNat ≤ 127 → toTitle c = asciiToUpper c

/-- The tables that classify nothing outside ASCII: a concrete instance. -/
def asciiTables : UnicodeTables where
  isLetter := fun _ => false
  isDigit := fun _ => false
  isSpace := asciiIsSpace
  isUpper := asciiIsUpper
  toTitle := asciiToUpper
  isSpace_ascii := fun _ _ => rfl
  isUpper_ascii := fun _ _ => rfl
  toTitle_ascii := fun _ _ => rfl

/-- Go `strings.isSeparator`: ASCII letters, digits and `_` are not separators, every
other ASCII code point is; outside ASCII, letters and digits are not, spaces are. -/
def isSeparator (U : UnicodeTables) (r : Char) : Bool :=
  if r.toNat ≤ 127 then
    if '0' ≤ r ∧ r ≤ '9' then false
    else if 'a' ≤ r ∧ r ≤ 'z' then false
    else if 'A' ≤ r ∧ r ≤ 'Z' then false
    else if r = '_' then false
    else true
  else if U.isLetter r || U.isDigit r then false
  else U.isSpace r

/-- The mapping closure of Go `strings.Title`, with the remembered previous rune `prev`. -/
def titleFrom (U : UnicodeTables) : Char → Str → Str
  | _, [] => []
  | prev, r :: rs =>
    (if isSeparator U prev then U.toTitle r else r) :: titleFrom U r rs

/-- Go `strings.Title(s)`: the first letter of every word is mapped to title case. -/
def Title (U : UnicodeTables) (s : Str) : Str := titleFrom U ' ' s

/-- Go `strings.TrimSpace(s)`: leading and trailing white space is removed. -/
def TrimSpace (U : UnicodeTables) (s : Str) : Str :=
  ((s.dropWhile U.isSpace).reverse.dropWhile U.isSpace).reverse

/-! ## Data model (`types.go`) -/

/-- Source `Field`. -/
structure Field where
  Name : Str
  Type_ : Str
  IsDefaultType : Bool
  annotation_ : Str
  deriving DecidableEq, Repr

/-- Source `Model`. -/
structure Model where
  Name : Str
  Fields : List Field
  deriving DecidableEq, Repr

/-- Source `Enum`. -/
structure Enum where
  Name : Str
  Values : List Str
  deriving DecidableEq, Repr

/-! ## The three fixed patterns of the annotation transformer

`FindStringSubmatch` returns the leftmost match as the list of the whole match followed by
the capture group, or the empty list (Go `nil`) when nothing matches. -/

/-- The tail `([^)]*)\)` of the default pattern, read just after `@default(`: the capture is
everything up to the first `)`, and there is no match when no `)` follows. -/
def captureToParen : Str → Option Str
  | [] => none
  | c :: cs => if c = ')' then some [] else (captureToParen cs).map (fun g => c :: g)

/-- Pattern `@default\(([^)]*)\)` under `FindStringSubmatch`. -/
def defaultRegexFind : Str → List Str
  | [] => []
  | c :: cs =>
    if hasPrefix (c :: cs) "@default(".toList then
      match captureToParen ((c :: cs).drop 9) with
      | some g => ["@default(".toList ++ g ++ ")".toList, g]
      | none => defaultRegexFind cs
    else defaultRegexFind cs

/-- The class `\s` of Go regular expressions: tab, newline, form feed, carriage return, space. -/
def isRegexSpace (c : Char) : Bool :=
  c = '\t' || c = '\n' || c = Char.ofNat 12 || c = '\r' || c = ' '

/-- The class `\w` of Go regular expressions: the characters of an ASCII identifier. -/
def isWordChar (c : Char) : Bool :=
  decide (('0' ≤ c ∧ c ≤ '9') ∨ ('a' ≤ c ∧ c ≤ 'z') ∨ ('A' ≤ c ∧ c ≤ 'Z') ∨ c = '_')

/-- The tail `(.*?)\]` read just after `[`: the capture is everything up to the first `]`,
and there is no match when the line or the text ends first (`.` excludes the newline). -/
def captureToBracket : Str → Option Str
  | [] => none
  | c :: cs =>
    if c = ']' then some []
    else if c = '\n' then none
    else (captureToBracket cs).map (fun g => c :: g)

/-- The tail `\s*\[(.*?)\]` read just after the key: the white space that was skipped and
the capture. -/
def matchBracketList (s : Str) : Option (Str × Str) :=
  match s.dropWhile isRegexSpace with
  | [] => none
  | c :: rest =>
    if c = '[' then (captureToBracket rest).map (fun g => (s.takeWhile isRegexSpace, g))
    else none

/-- Pattern `key\s*\[(.*?)\]` under `FindStringSubmatch`, for a literal `key`. -/
def keyListRegexFind (key : Str) : Str → List Str
  | [] => []
  | c :: cs =>
    if hasPrefix (c :: cs) key then
      match matchBracketList ((c :: cs).drop key.length) with
      | some (ws, g) => [key ++ ws ++ "[".toList ++ g ++ "]".toList, g]
      | none => keyListRegexFind key cs
    else keyListRegexFind key cs

/-! ## Annotation transformer (`utils.go`, lines 228-291) -/

/-- Source `transformRelationTag`: both captures default to the empty string. -/
def transformRelationTag (U : UnicodeTables) (field : Field) : Str :=
  let fieldsMatch := keyListRegexFind "fields:".toList field.annotation_
  let referencesMatch := keyListRegexFind "references:".toList field.annotation_
  let fieldsValue : Str := if fieldsMatch.length > 1 then fieldsMatch.getD 1 [] else []
  let referencesValue : Str :=
    if referencesMatch.length > 1 then referencesMatch.getD 1 [] else []
  "foreignKey:".toList ++ Title U fieldsValue ++ ";references:".toList
    ++ Title U referencesValue ++ ";".toList

/-- Source `transformGormTag`: five rules run in a fixed order, each overwriting
`gormValue`, and the column directive is appended. -/
def transformGormTag (U : UnicodeTables) (field : Field) : Str :=
  let gormValue : Str := []
  let gormValue :=
    if contains field.annotation_ "@unique".toList then "unique;".toList else gormValue
  let gormValue :=
    if contains field.annotation_ "@id".toList then
      "primaryKey;type:uuid;default:uuid_generate_v4()".toList
    else gormValue
  let gormValue :=
    if contains field.annotation_ "@updatedAt".toList then
      "default:now();autoUpdateTime".toList
    else gormValue
  let gormValue :=
    if contains field.annotation_ "@default".toList then
      let fieldsMatch := defaultRegexFind field.annotation_
      if fieldsMatch.length > 1 then
        let fieldValue : Str :=
          if contains (fieldsMatch.getD 1 []) "now".toList then "now()".toList
          else fieldsMatch.getD 1 []
        "default:".toList ++ fieldValue ++ ";".toList
      else gormValue
    else gormValue
  let gormValue :=
    if contains field.annotation_ "@relation".toList
        && contains field.annotation_ "fields".toList
        && contains field.annotation_ "references".toList then
      transformRelationTag U field
    else gormValue
  gormValue ++ "column:".toList ++ field.Name

/-- Source `transformAttributes`: the two tag namespaces of a field. -/
def transformAttributes (U : UnicodeTables) (field : Field) : Str :=
  let field := { field with annotation_ := TrimSpace U field.annotation_ }
  let gormValue := transformGormTag U field
  "\x60gorm:\"".toList ++ gormValue ++ "\" json:\"".toList ++ field.Name ++ "\"\x60".toList

/-! ## Struct emitter (`utils.go`, lines 151-209) -/

/-- Source `buildAcronym`: the upper-case code points of the name, in order. -/
def buildAcronym (U : UnicodeTables) (name : Str) : Str :=
  name.foldl (fun acronym ch => if U.isUpper ch then acronym ++ [ch] else acronym) []

/-- A Go `map[string]Enum`, as a lookup function. -/
abbrev EnumMap := Str → Option Enum

/-- The empty map of `make(map[string]Enum)`. -/
def EnumMap.empty : EnumMap := fun _ => none

/-- The assignment `m[k] = v`: a later entry for the same key replaces the earlier one. -/
def EnumMap.insert (m : EnumMap) (k : Str) (v : Enum) : EnumMap :=
  fun k1 => if k1 = k then some v else m k1

/-- The read `m[k]` of one result: the zero `Enum` when the key is absent. -/
def EnumMap.get (m : EnumMap) (k : Str) : Enum := (m k).getD ⟨[], []⟩

/-- The first loop of `GenerateGoStruct` (lines 158-161): the lookup map of the enums. -/
def buildEnumMap (enums : List Enum) : EnumMap :=
  enums.foldl (fun m e => m.insert e.Name e) EnumMap.empty

/-- One iteration of the field loop of `GenerateGoStruct` (lines 165-178) on the state made
of the text written so far and the recorded enum names. -/
def fieldStep (U : UnicodeTables) (enumMap : EnumMap) (st : Str × List Str) (field : Field) :
    Str × List Str :=
  let (sb, enumNames) := st
  let (fieldType, enumNames) : Str × List Str :=
    if !field.IsDefaultType then
      if (enumMap field.Type_).isSome then (field.Type_, enumNames ++ [field.Type_])
      else ("*".toList ++ field.Type_, enumNames)
    else (field.Type_, enumNames)
  let attributes := transformAttributes U field
  (sb ++ ("\t".toList ++ Title U field.Name ++ " ".toList ++ fieldType ++ " ".toList
      ++ attributes ++ "\n".toList), enumNames)

/-- One iteration of the enum loop of `GenerateGoStruct` (lines 183-194): the type
declaration and the constant block of the enum recorded under `enumName`. -/
def enumStep (U : UnicodeTables) (enumMap : EnumMap) (sb : Str) (enumName : Str) : Str :=
  let matchingEnum := enumMap.get enumName
  let sb := sb ++ ("type ".toList ++ matchingEnum.Name ++ " string\n\n".toList)
  let sb := sb ++ "const (\n".toList
  let acronym := buildAcronym U matchingEnum.Name
  let sb := matchingEnum.Values.foldl
    (fun sb value =>
      sb ++ ("\t".toList ++ (acronym ++ "_".toList ++ value) ++ " ".toList ++ matchingEnum.Name
        ++ " = \"".toList ++ value ++ "\"\n".toList))
    sb
  sb ++ ")\n".toList

/-- Source `GenerateGoStruct`. -/
def GenerateGoStruct (U : UnicodeTables) (model : Model) (enums : List Enum) : Str :=
  let sb : Str := "package models\n\n".toList
  let sb := sb ++ ("type ".toList ++ model.Name ++ " struct \x7b\n".toList)
  let enumMap := buildEnumMap enums
  let (sb, enumNames) := model.Fields.foldl (fieldStep U enumMap) (sb, [])
  let sb := sb ++ "\x7d\n\n".toList
  let sb := if enumNames.length > 0 then enumNames.foldl (enumStep U enumMap) sb else sb
  sb

/-! ## Schema parser (`utils.go`, lines 43-116)

The four patterns of the parser are used with `FindAllStringSubmatch(s, -1)`: the matches are
found from left to right, each search starting where the previous match ended.  A pattern is
given by its matcher at one position, which returns the submatches and the length of the
whole match; none of the four patterns matches the empty text. -/

/-- Go `FindAllStringSubmatch(s, -1)`: `skip` counts the characters of the last match that are
still to be passed over; at a position outside a match the pattern is tried, and on failure
the search moves one character on. -/
def findAllFrom {α : Type} (matchAt : Str → Option (α × Nat)) : Nat → Str → List α
  | _, [] => []
  | skip + 1, _ :: cs => findAllFrom matchAt skip cs
  | 0, c :: cs =>
    match matchAt (c :: cs) with
    | some (m, len) => m :: findAllFrom matchAt (len - 1) cs
    | none => findAllFrom matchAt 0 cs

/-- The tail `([\s\S]+?)\x7d` of the block patterns, read just after the opening brace: the
capture takes one character whatever it is, then everything up to the next closing brace. -/
def captureBlockBody : Str → Option Str
  | [] => none
  | c :: cs =>
    if cs.any (fun d => d = '\x7d') then some (c :: cs.takeWhile (fun d => d ≠ '\x7d'))
    else none

/-- Patterns `model (\w+) \{([\s\S]+?)\}` and `enum (\w+) \{([\s\S]+?)\}` at one position,
for the keyword with its blank (`model ` or `enum `): the name is the longest run of word
characters, and it must be followed by a blank and the opening brace. -/
def matchBlockAt (keyword : Str) (s : Str) : Option ((Str × Str) × Nat) :=
  if hasPrefix s keyword then
    let name := (s.drop keyword.length).takeWhile isWordChar
    let rest := (s.drop keyword.length).dropWhile isWordChar
    if name.isEmpty then none
    else if hasPrefix rest " \x7b".toList then
      match captureBlockBody (rest.drop 2) with
      | some body => some ((name, body), keyword.length + name.length + 2 + body.length + 1)
      | none => none
    else none
  else none

/-- The class `[\w\[\]\?]` of the type token. -/
def isTypeChar (c : Char) : Bool :=
  isWordChar c || c = '[' || c = ']' || c = '?'

/-- The optional group `(\s+@[\w]+(\([^\)]*\))?)?` of the field pattern, read just after the
type token: the text of the group, empty when the group does not take part.  The group
needs white space, `@` and a name; the argument list is taken when a `(` follows the name
and a `)` closes it. -/
def matchAnnotationGroup (s : Str) : Str :=
  let ws := s.takeWhile isRegexSpace
  match s.dropWhile isRegexSpace with
  | [] => []
  | c :: rest =>
    let name := rest.takeWhile isWordChar
    if ws.isEmpty || c ≠ '@' || name.isEmpty then []
    else
      match rest.dropWhile isWordChar with
      | [] => ws ++ "@".toList ++ name
      | d :: rest2 =>
        if d = '(' then
          match captureToParen rest2 with
          | some g => ws ++ "@".toList ++ name ++ "(".toList ++ g ++ ")".toList
          | none => ws ++ "@".toList ++ name
        else ws ++ "@".toList ++ name

/-- Pattern `(\w+)\s+([\w\[\]\?]+)(\s+@[\w]+(\([^\)]*\))?)?` at one position: the longest
name, the white space after it (line breaks included), the longest type token, and the
optional group.  The submatches are the name, the type token and the text of the group. -/
def matchFieldAt (s : Str) : Option ((Str × Str × Str) × Nat) :=
  let name := s.takeWhile isWordChar
  let rest := s.dropWhile isWordChar
  let ws := rest.takeWhile isRegexSpace
  let typeToken := (rest.dropWhile isRegexSpace).takeWhile isTypeChar
  let rest2 := (rest.dropWhile isRegexSpace).dropWhile isTypeChar
  if name.isEmpty || ws.isEmpty || typeToken.isEmpty then none
  else
    let group := matchAnnotationGroup rest2
    some ((name, typeToken, group), name.length + ws.length + typeToken.length + group.length)

/-- Pattern `\s*(\w+)` at one position: the white space, then the longest run of word
characters, which is the submatch. -/
def matchEnumValueAt (s : Str) : Option (Str × Nat) :=
  let ws := s.takeWhile isRegexSpace
  let value := (s.dropWhile isRegexSpace).takeWhile isWordChar
  if value.isEmpty then none else some (value, ws.length + value.length)

/-- Source `parseEnumValues`. -/
def parseEnumValues (enumValues : Str) : List Str :=
  findAllFrom matchEnumValueAt 0 enumValues

/-- Source `parseFields`. -/
def parseFields (modelFields : Str) : List Field :=
  (findAllFrom matchFieldAt 0 modelFields).map (fun fieldMatch =>
    let fieldName := fieldMatch.1
    let fieldType := fieldMatch.2.1
    let fieldAnnotation := fieldMatch.2.2
    let (goType, isDefaultType) := mapPrismaTypeToGo fieldType
    { Name := fieldName, Type_ := goType, IsDefaultType := isDefaultType,
      annotation_ := fieldAnnotation })

/-- Source `parseModels`, for the model pattern. -/
def parseModels (schema : Str) : List Model :=
  (findAllFrom (matchBlockAt "model ".toList) 0 schema).map (fun m =>
    { Name := m.1, Fields := parseFields m.2 })

/-- Source `parseEnums`, for the enum pattern. -/
def parseEnums (schema : Str) : List Enum :=
  (findAllFrom (matchBlockAt "enum ".toList) 0 schema).map (fun m =>
    { Name := m.1, Values := parseEnumValues m.2 })

/-- Source `ParseSchemaFile`: neither parser returns an error, so the result is the pair of
the models and the enums. -/
def ParseSchemaFile (schema : Str) : Except Str (List Model × List Enum) :=
  Except.ok (parseModels schema, parseEnums schema)

/-! ## Pipeline driver (`main.go`, and `utils.go`, lines 11-41)

The file system is not part of the embedding: the result of `os.ReadFile` and the outcome of
the three steps of `WriteStructToFile` are inputs, and the text printed and the exit status
are the output. -/

/-- Source `ReadSchemaFile`, over the result of `os.ReadFile` (the contents, or the text of
the error). -/
def ReadSchemaFile (readResult : Except Str Str) : Except Str Str :=
  match readResult with
  | Except.error err => Except.error ("failed to read schema file: ".toList ++ err)
  | Except.ok data => Except.ok data

/-- What the file system does with one call of `WriteStructToFile`: every step succeeds, or
the first failing step with the text of its error. -/
inductive WriteOutcome where
  | ok
  | mkdirFails (err : Str)
  | createFails (err : Str)
  | writeFails (err : Str)
  deriving DecidableEq, Repr

/-- Source `WriteStructToFile`, over the outcome of its steps: the returned error, `none` for
the Go `nil`.  `lower` stands for `strings.ToLower`. -/
def WriteStructToFile (lower : Str → Str) (outcome : WriteOutcome) (model : Model) :
    Option Str :=
  let fileName := "models/".toList ++ lower model.Name ++ ".go".toList
  match outcome with
  | WriteOutcome.mkdirFails err => some ("failed to create models directory: ".toList ++ err)
  | WriteOutcome.createFails err =>
    some ("failed to create file ".toList ++ fileName ++ ": ".toList ++ err)
  | WriteOutcome.writeFails err =>
    some ("failed to write to file ".toList ++ fileName ++ ": ".toList ++ err)
  | WriteOutcome.ok => none

/-- The loop of `main` (lines 34-40) on the text printed so far: the struct is generated, the
result of `WriteStructToFile` is not looked at, and the success line is printed. -/
def mainLoop (U : UnicodeTables) (lower : Str → Str) (write : Model → Str → WriteOutcome)
    (enums : List Enum) (out : Str) (models : List Model) : Str :=
  models.foldl
    (fun out model =>
      let goStruct := GenerateGoStruct U model enums
      let _ := WriteStructToFile lower (write model goStruct) model
      out ++ ("Successfully wrote ".toList ++ model.Name))
    out

/-- Source `main`, over the command line `args` (program name included), the result of reading
the file at a path, and the outcome of the write of a model: the text printed and the exit
status. -/
def main (U : UnicodeTables) (lower : Str → Str) (args : List Str)
    (readFile : Str → Except Str Str) (write : Model → Str → WriteOutcome) : Str × Nat :=
  if args.length ≠ 2 then
    ("Usage: go run main.go <prisma file path>\n".toList, 1)
  else
    let prismaFile := args.getD 1 []
    match ReadSchemaFile (readFile prismaFile) with
    | Except.error err =>
      ("Error reading schema file: ".toList ++ err ++ "\n".toList, 1)
    | Except.ok schema =>
      match ParseSchemaFile schema with
      | Except.error err => ("Error parsing schema: ".toList ++ err ++ "\n".toList, 1)
      | Except.ok (models, enums) => (mainLoop U lower write enums [] models, 0)

/-! ## Specification-side definitions

What the specification says about the emitted text, stated without the loops and the map
of the code; the theorems compare them with the code. -/

/-- Concatenation of a list of texts. -/
def concatAll : List Str → Str
  | [] => []
  | s :: ss => s ++ concatAll ss

/-- The emitted type of a field as the specification gives it: a built-in type as it is, the
name of an enum of the list as it is, anything else behind a `*`. -/
def specFieldType (enums : List Enum) (field : Field) : Str :=
  if field.IsDefaultType then field.Type_
  else if enums.any (fun e => e.Name = field.Type_) then field.Type_
  else "*".toList ++ field.Type_

/-- The line emitted for a field, with the type of the specification. -/
def specFieldLine (U : UnicodeTables) (enums : List Enum) (field : Field) : Str :=
  "\t".toList ++ Title U field.Name ++ " ".toList ++ specFieldType enums field ++ " ".toList
    ++ transformAttributes U field ++ "\n".toList

/-- The names recorded for the enum blocks: one entry for every field that is not built-in
and whose type is the name of an enum of the list, in field order. -/
def referencedEnumNames (enums : List Enum) (fields : List Field) : List Str :=
  (fields.filter (fun f => !f.IsDefaultType && enums.any (fun e => e.Name = f.Type_))).map
    (fun f => f.Type_)

/-- The text of one enum block: the type declaration and the constants. -/
def enumBlock (U : UnicodeTables) (enumMap : EnumMap) (enumName : Str) : Str :=
  enumStep U enumMap [] enumName

/-- Number of positions of `s` at which `sub` occurs. -/
def countOccurrences : Str → Str → Nat
  | [], sub => if sub.isEmpty then 1 else 0
  | c :: cs, sub => (if hasPrefix (c :: cs) sub then 1 else 0) + countOccurrences cs sub

/-- A model with two fields of the enum type `Role`. -/
def twoRoleModel : Model :=
  ⟨"User".toList,
   [⟨"role".toList, "Role".toList, false, []⟩, ⟨"prevRole".toList, "Role".toList, false, []⟩]⟩

/-- The enum list with the single enum `Role` of values `ADMIN` and `MEMBER`. -/
def roleEnums : List Enum := [⟨"Role".toList, ["ADMIN".toList, "MEMBER".toList]⟩]

/-- The text with its first character upper-cased when it is an ASCII lower-case letter and
every other character unchanged. -/
def capitalizeFirst : Str → Str
  | [] => []
  | c :: cs => asciiToUpper c :: cs

/-- The annotation `@relation(fields: [f], references: [r])`. -/
def relationAnnot (f r : Str) : Str :=
  "@relation(fields: [".toList ++ f ++ "], references: [".toList ++ r ++ "])".toList

/-- The annotation `@default(A)`. -/
def defaultAnnot (A : Str) : Str := "@default(".toList ++ A ++ ")".toList

/-- The five rules of the annotation transformer. -/
inductive TagRule where
  | unique | id | updatedAt | default | relation
  deriving DecidableEq, Repr

/-- The fixed order in which the rules are evaluated. -/
def ruleOrder : List TagRule :=
  [TagRule.unique, TagRule.id, TagRule.updatedAt, TagRule.default, TagRule.relation]

/-- Whether the annotation holds the marker of a rule: the literal marker for the first
three, a `@default(...)` that the default pattern matches for the fourth, and `@relation`
together with `fields` and `references` for the fifth. -/
def ruleFires (annotation_ : Str) : TagRule → Bool
  | TagRule.unique => contains annotation_ "@unique".toList
  | TagRule.id => contains annotation_ "@id".toList
  | TagRule.updatedAt => contains annotation_ "@updatedAt".toList
  | TagRule.default =>
    contains annotation_ "@default".toList && decide ((defaultRegexFind annotation_).length > 1)
  | TagRule.relation =>
    contains annotation_ "@relation".toList && contains annotation_ "fields".toList
      && contains annotation_ "references".toList

/-- The fragment of a rule. -/
def ruleFragment (U : UnicodeTables) (field : Field) : TagRule → Str
  | TagRule.unique => "unique;".toList
  | TagRule.id => "primaryKey;type:uuid;default:uuid_generate_v4()".toList
  | TagRule.updatedAt => "default:now();autoUpdateTime".toList
  | TagRule.default =>
    "default:".toList
      ++ (if contains ((defaultRegexFind field.annotation_).getD 1 []) "now".toList
          then "now()".toList else (defaultRegexFind field.annotation_).getD 1 [])
      ++ ";".toList
  | TagRule.relation => transformRelationTag U field

/-- The fragment of the rule that comes last in the rule order among those that fire, and the
empty text when none fires. -/
def lastRuleFragment (U : UnicodeTables) (field : Field) : Str :=
  match (ruleOrder.filter (ruleFires field.annotation_)).getLast? with
  | some rule => ruleFragment U field rule
  | none => []

/-- The enum block as the specification gives it: the type declaration, then one constant
line per value in value order, named by the acronym of the enum and the value. -/
def specEnumBlock (U : UnicodeTables) (E : Enum) : Str :=
  "type ".toList ++ E.Name ++ " string\n\n".toList ++ "const (\n".toList
    ++ concatAll (E.Values.map (fun v =>
        "\t".toList ++ buildAcronym U E.Name ++ "_".toList ++ v ++ " ".toList ++ E.Name
          ++ " = \"".toList ++ v ++ "\"\n".toList))
    ++ ")\n".toList

/-- The enum that a name denotes in an enum list: the last enum of the list with that name
(the only one when the names are distinct), and the zero enum when there is none. -/
def enumNamed (enums : List Enum) (name : Str) : Enum :=
  (enums.reverse.find? (fun e => e.Name = name)).getD ⟨[], []⟩

/-- Whether a text is ASCII. -/
def isAsciiStr (s : Str) : Bool := s.all (fun c => decide (c.toNat ≤ 127))

/-- Whether every text of a model is ASCII. -/
def isAsciiModel (model : Model) : Bool :=
  isAsciiStr model.Name
    && model.Fields.all (fun f =>
        isAsciiStr f.Name && isAsciiStr f.Type_ && isAsciiStr f.annotation_)

/-- Whether every text of an enum list is ASCII. -/
def isAsciiEnums (enums : List Enum) : Bool :=
  enums.all (fun e => isAsciiStr e.Name && e.Values.all isAsciiStr)

/-- An enum body: every value preceded by its white space, then the trailing white space. -/
def enumBodyText (tokens : List (Str × Str)) (trailing : Str) : Str :=
  concatAll (tokens.map (fun t => t.1 ++ t.2)) ++ trailing

/-- The schema text of the end-to-end example. -/
def userRoleSchema : Str :=
  "model User \x7b id String @id\n name String?\n role Role \x7d\nenum Role \x7b ADMIN MEMBER \x7d".toList

/-- The model that the end-to-end example parses to. -/
def userModel : Model :=
  ⟨"User".toList,
   [⟨"id".toList, "string".toList, true, " @id".toList⟩,
    ⟨"name".toList, "*string".toList, true, []⟩,
    ⟨"role".toList, "Role".toList, false, []⟩]⟩

/-- A model with the fields `b`, `a`, `c`, in this order. -/
def bacModel : Model :=
  ⟨"T".toList,
   [⟨"b".toList, "int".toList, true, []⟩,
    ⟨"a".toList, "string".toList, true, []⟩,
    ⟨"c".toList, "bool".toList, true, []⟩]⟩

/-! ## Theorems -/

/-- C1: each of the six scalar schema types maps to its target of the fixed table, flagged
built-in, and with the `?` marker to the same target behind `*`, flagged built-in; the `*`
prefix is there exactly for the inputs that carry the marker. -/
theorem mapPrismaTypeToGo_scalar_table :
    (mapPrismaTypeToGo "Int".toList = ("int".toList, true) ∧
      mapPrismaTypeToGo "String".toList = ("string".toList, true) ∧
      mapPrismaTypeToGo "Boolean".toList = ("bool".toList, true) ∧
      mapPrismaTypeToGo "Float".toList = ("float64".toList, true) ∧
      mapPrismaTypeToGo "DateTime".toList = ("time.Time".toList, true) ∧
      mapPrismaTypeToGo "Json".toList = ("interface\x7b\x7d".toList, true)) ∧
    (mapPrismaTypeToGo "Int?".toList = ("*int".toList, true) ∧
      mapPrismaTypeToGo "String?".toList = ("*string".toList, true) ∧
      mapPrismaTypeToGo "Boolean?".toList = ("*bool".toList, true) ∧
      mapPrismaTypeToGo "Float?".toList = ("*float64".toList, true) ∧
      mapPrismaTypeToGo "DateTime?".toList = ("*time.Time".toList, true) ∧
      mapPrismaTypeToGo "Json?".toList = ("*interface\x7b\x7d".toList, true)) ∧
    scalarTable.all (fun p =>
      mapPrismaTypeToGo p.1 == (p.2, true)
        && mapPrismaTypeToGo (p.1 ++ "?".toList) == ("*".toList ++ p.2, true)
        && !hasPrefix (mapPrismaTypeToGo p.1).1 "*".toList
        && hasPrefix (mapPrismaTypeToGo (p.1 ++ "?".toList)).1 "*".toList) = true := by
  decide

/-- C2 (evaluation of the code): a scalar type with the array suffix is not found by the
`switch`, so `Int[]` maps to `[]Int` flagged as a non-built-in type, and likewise for
the other five scalar types. -/
theorem mapPrismaTypeToGo_scalar_array :
    mapPrismaTypeToGo "Int[]".toList = ("[]Int".toList, false) ∧
    mapPrismaTypeToGo "String[]".toList = ("[]String".toList, false) ∧
    mapPrismaTypeToGo "Boolean[]".toList = ("[]Boolean".toList, false) ∧
    mapPrismaTypeToGo "Float[]".toList = ("[]Float".toList, false) ∧
    mapPrismaTypeToGo "DateTime[]".toList = ("[]DateTime".toList, false) ∧
    mapPrismaTypeToGo "Json[]".toList = ("[]Json".toList, false) ∧
    mapPrismaTypeToGo "Int[]".toList ≠ ("[]int".toList, true) := by
  decide

/-! ### The struct emitter -/

theorem foldl_append_texts {α : Type} (g : α → Str) (l : List α) (sb : Str) :
    l.foldl (fun sb a => sb ++ g a) sb = sb ++ concatAll (l.map g) := by
  induction l generalizing sb with
  | nil => simp [concatAll]
  | cons a l ih => simp [ih, concatAll, List.append_assoc]

theorem enumStep_eq_append (U : UnicodeTables) (m : EnumMap) (sb n : Str) :
    enumStep U m sb n = sb ++ enumBlock U m n := by
  simp only [enumBlock, enumStep, foldl_append_texts, List.append_assoc, List.nil_append]

theorem foldl_enumStep (U : UnicodeTables) (m : EnumMap) (names : List Str) (sb : Str) :
    names.foldl (enumStep U m) sb = sb ++ concatAll (names.map (enumBlock U m)) := by
  induction names generalizing sb with
  | nil => simp [concatAll]
  | cons n names ih =>
    simp only [List.foldl_cons, List.map_cons, concatAll, ih, enumStep_eq_append,
      List.append_assoc]

theorem foldl_insert_isSome (enums : List Enum) (m : EnumMap) (k : Str) :
    ((enums.foldl (fun m e => m.insert e.Name e) m) k).isSome
      = (enums.any (fun e => e.Name = k) || (m k).isSome) := by
  induction enums generalizing m with
  | nil => simp
  | cons e enums ih =>
    simp only [List.foldl_cons, ih, List.any_cons, EnumMap.insert]
    by_cases h : k = e.Name
    · simp [h]
    · have h1 : ¬ e.Name = k := fun h2 => h h2.symm
      simp [h, h1]

theorem buildEnumMap_isSome (enums : List Enum) (k : Str) :
    (buildEnumMap enums k).isSome = enums.any (fun e => e.Name = k) := by
  simp [buildEnumMap, foldl_insert_isSome, EnumMap.empty]

theorem foldl_fieldStep (U : UnicodeTables) (enums : List Enum) (fields : List Field)
    (sb : Str) (names : List Str) :
    fields.foldl (fieldStep U (buildEnumMap enums)) (sb, names)
      = (sb ++ concatAll (fields.map (specFieldLine U enums)),
         names ++ referencedEnumNames enums fields) := by
  induction fields generalizing sb names with
  | nil => simp [concatAll, referencedEnumNames]
  | cons f fields ih =>
    simp only [List.foldl_cons, List.map_cons, concatAll]
    have hstep : fieldStep U (buildEnumMap enums) (sb, names) f
        = (sb ++ specFieldLine U enums f, names ++ referencedEnumNames enums [f]) := by
      simp only [fieldStep, specFieldLine, specFieldType, referencedEnumNames,
        buildEnumMap_isSome]
      cases hd : f.IsDefaultType <;> cases he : enums.any (fun e => e.Name = f.Type_) <;>
        simp [hd, he, List.filter]
    rw [hstep, ih]
    simp [referencedEnumNames, List.filter_cons, List.append_assoc]
    split <;> simp

theorem GenerateGoStruct_eq (U : UnicodeTables) (model : Model) (enums : List Enum) :
    GenerateGoStruct U model enums
      = "package models\n\n".toList ++ ("type ".toList ++ model.Name ++ " struct \x7b\n".toList)
        ++ concatAll (model.Fields.map (specFieldLine U enums))
        ++ "\x7d\n\n".toList
        ++ concatAll ((referencedEnumNames enums model.Fields).map
            (enumBlock U (buildEnumMap enums))) := by
  simp only [GenerateGoStruct, foldl_fieldStep, foldl_enumStep, List.nil_append]
  split <;> rename_i h
  · rfl
  · have : referencedEnumNames enums model.Fields = [] := by
      cases hr : referencedEnumNames enums model.Fields with
      | nil => rfl
      | cons a l => simp [hr] at h
    simp [this, concatAll]

/-- C3: the text of `GenerateGoStruct` is the header, then one line per field in field order
whose type is `field.Type` for a built-in field, `field.Type` (no `*`) when it names an enum
of the list, and `"*" ++ field.Type` otherwise, then the closing brace and the enum blocks. -/
theorem GenerateGoStruct_field_types (U : UnicodeTables) (model : Model) (enums : List Enum) :
    GenerateGoStruct U model enums
      = "package models\n\n".toList ++ ("type ".toList ++ model.Name ++ " struct \x7b\n".toList)
        ++ concatAll (model.Fields.map (fun f =>
            "\t".toList ++ Title U f.Name ++ " ".toList
              ++ (if f.IsDefaultType = true then f.Type_
                  else if ∃ e ∈ enums, e.Name = f.Type_ then f.Type_
                  else "*".toList ++ f.Type_)
              ++ " ".toList ++ transformAttributes U f ++ "\n".toList))
        ++ "\x7d\n\n".toList
        ++ concatAll ((referencedEnumNames enums model.Fields).map
            (enumBlock U (buildEnumMap enums))) := by
  have hline : (fun f : Field =>
      "\t".toList ++ Title U f.Name ++ " ".toList
        ++ (if f.IsDefaultType = true then f.Type_
            else if ∃ e ∈ enums, e.Name = f.Type_ then f.Type_
            else "*".toList ++ f.Type_)
        ++ " ".toList ++ transformAttributes U f ++ "\n".toList) = specFieldLine U enums := by
    funext f
    simp [specFieldLine, specFieldType]
  rw [hline]
  exact GenerateGoStruct_eq U model enums

/-! ### Independence of the tables on ASCII text -/

theorem isSeparator_ascii (U : UnicodeTables) (r : Char) (h : r.toNat ≤ 127) :
    isSeparator U r = isSeparator asciiTables r := by
  simp [isSeparator, h]

theorem titleFrom_ascii (U : UnicodeTables) (s : Str) :
    ∀ prev : Char, prev.toNat ≤ 127 → (∀ c ∈ s, c.toNat ≤ 127) →
      titleFrom U prev s = titleFrom asciiTables prev s := by
  induction s with
  | nil => intro prev _ _; rfl
  | cons r rs ih =>
    intro prev hp hs
    have hr : r.toNat ≤ 127 := hs r (List.mem_cons_self _ _)
    simp only [titleFrom, isSeparator_ascii U prev hp, U.toTitle_ascii r hr,
      ih r hr (fun c hc => hs c (List.mem_cons_of_mem _ hc))]
    rfl

theorem Title_ascii (U : UnicodeTables) (s : Str) (hs : ∀ c ∈ s, c.toNat ≤ 127) :
    Title U s = Title asciiTables s :=
  titleFrom_ascii U s ' ' (by decide) hs

theorem buildAcronym_ascii (U : UnicodeTables) (s : Str) (hs : ∀ c ∈ s, c.toNat ≤ 127) :
    buildAcronym U s = buildAcronym asciiTables s := by
  have key : ∀ (l : Str) (acc : Str), (∀ c ∈ l, c.toNat ≤ 127) →
      l.foldl (fun acronym ch => if U.isUpper ch then acronym ++ [ch] else acronym) acc
        = l.foldl (fun acronym ch => if asciiTables.isUpper ch then acronym ++ [ch] else acronym)
            acc := by
    intro l
    induction l with
    | nil => intro acc _; rfl
    | cons r rs ih =>
      intro acc hl
      have hr : r.toNat ≤ 127 := hl r (List.mem_cons_self _ _)
      simp only [List.foldl_cons, U.isUpper_ascii r hr]
      rw [ih _ (fun c hc => hl c (List.mem_cons_of_mem _ hc))]
      rfl
  exact key s [] hs

theorem GenerateGoStruct_twoRole_tables (U : UnicodeTables) :
    GenerateGoStruct U twoRoleModel roleEnums
      = GenerateGoStruct asciiTables twoRoleModel roleEnums := by
  rw [GenerateGoStruct_eq, GenerateGoStruct_eq]
  have h1 : Title U "role".toList = Title asciiTables "role".toList :=
    Title_ascii U _ (by decide)
  have h2 : Title U "prevRole".toList = Title asciiTables "prevRole".toList :=
    Title_ascii U _ (by decide)
  have h3 : buildAcronym U "Role".toList = buildAcronym asciiTables "Role".toList :=
    buildAcronym_ascii U _ (by decide)
  have e1 : referencedEnumNames roleEnums twoRoleModel.Fields
      = ["Role".toList, "Role".toList] := by decide
  have e2 : ∀ V, enumBlock V (buildEnumMap roleEnums) "Role".toList =
      "type Role string\n\nconst (\n".toList
        ++ ("\t".toList ++ (buildAcronym V "Role".toList ++ "_ADMIN".toList)
          ++ " Role = \"ADMIN\"\n".toList
          ++ ("\t".toList ++ (buildAcronym V "Role".toList ++ "_MEMBER".toList)
            ++ " Role = \"MEMBER\"\n".toList ++ ")\n".toList)) := by
    intro V
    simp [enumBlock, enumStep, buildEnumMap, EnumMap.get, EnumMap.insert, roleEnums,
      EnumMap.empty]
  have l1 : ∀ V, specFieldLine V roleEnums ⟨"role".toList, "Role".toList, false, []⟩
      = "\t".toList ++ Title V "role".toList
        ++ " Role \x60gorm:\"column:role\" json:\"role\"\x60\n".toList := by
    intro V
    simp [specFieldLine, specFieldType, roleEnums, transformAttributes, TrimSpace,
      transformGormTag, contains, hasPrefix]
  have l2 : ∀ V, specFieldLine V roleEnums ⟨"prevRole".toList, "Role".toList, false, []⟩
      = "\t".toList ++ Title V "prevRole".toList
        ++ " Role \x60gorm:\"column:prevRole\" json:\"prevRole\"\x60\n".toList := by
    intro V
    simp [specFieldLine, specFieldType, roleEnums, transformAttributes, TrimSpace,
      transformGormTag, contains, hasPrefix]
  rw [e1]
  simp only [twoRoleModel, List.map_cons, List.map_nil, l1, l2, e2, h1, h2, h3]

/-- C5 (evaluation of the code): for the model with the two fields `role Role` and
`prevRole Role`, the enum name is recorded once per field, so the generated text holds the
declaration `type Role string` twice and the constant block twice. -/
theorem GenerateGoStruct_enum_emitted_per_field (U : UnicodeTables) :
    GenerateGoStruct U twoRoleModel roleEnums
      = ("package models\n\ntype User struct \x7b\n"
          ++ "\tRole Role \x60gorm:\"column:role\" json:\"role\"\x60\n"
          ++ "\tPrevRole Role \x60gorm:\"column:prevRole\" json:\"prevRole\"\x60\n\x7d\n\n"
          ++ "type Role string\n\nconst (\n\tR_ADMIN Role = \"ADMIN\"\n"
          ++ "\tR_MEMBER Role = \"MEMBER\"\n)\n"
          ++ "type Role string\n\nconst (\n\tR_ADMIN Role = \"ADMIN\"\n"
          ++ "\tR_MEMBER Role = \"MEMBER\"\n)\n").toList ∧
    countOccurrences (GenerateGoStruct U twoRoleModel roleEnums) "type Role string".toList = 2 ∧
    countOccurrences (GenerateGoStruct U twoRoleModel roleEnums)
      "const (\n\tR_ADMIN Role = \"ADMIN\"\n\tR_MEMBER Role = \"MEMBER\"\n)\n".toList = 2 := by
  rw [GenerateGoStruct_twoRole_tables U]
  decide

/-! ### The default pattern -/

theorem captureToParen_append (A rest : Str) :
    captureToParen (A ++ ')' :: rest) = some (A.takeWhile (fun c => c ≠ ')')) := by
  induction A with
  | nil => simp [captureToParen]
  | cons a A ih =>
    by_cases h : a = ')'
    · simp [captureToParen, h]
    · simp [captureToParen, h, ih]

theorem captureToParen_none (s : Str) (h : ')' ∉ s) : captureToParen s = none := by
  induction s with
  | nil => rfl
  | cons a s ih =>
    have h1 : a ≠ ')' := fun e => h (e ▸ List.mem_cons_self _ _)
    have h2 : ')' ∉ s := fun e => h (List.mem_cons_of_mem _ e)
    simp [captureToParen, h1, ih h2]

theorem defaultRegexFind_none (s : Str) (h : ')' ∉ s) : defaultRegexFind s = [] := by
  induction s with
  | nil => rfl
  | cons a s ih =>
    have h2 : ')' ∉ s := fun e => h (List.mem_cons_of_mem _ e)
    have h3 : ')' ∉ (a :: s).drop 9 := fun e => h (List.mem_of_mem_drop e)
    simp only [defaultRegexFind, captureToParen_none _ h3, ih h2]
    split <;> rfl

theorem defaultRegexFind_at (A : Str) :
    defaultRegexFind ("@default(".toList ++ A ++ ")".toList)
      = ["@default(".toList ++ A.takeWhile (fun c => c ≠ ')') ++ ")".toList,
         A.takeWhile (fun c => c ≠ ')')] := by
  have h : captureToParen (A ++ ")".toList) = some (A.takeWhile (fun c => c ≠ ')')) :=
    captureToParen_append A []
  have e : "@default(".toList ++ A ++ ")".toList
      = '@' :: ("default(".toList ++ (A ++ ")".toList)) := by
    rw [List.append_assoc]; rfl
  have hp : hasPrefix ('@' :: ("default(".toList ++ (A ++ ")".toList))) "@default(".toList
      = true := by simp [hasPrefix]
  have hd : List.drop 9 ('@' :: ("default(".toList ++ (A ++ ")".toList)))
      = A ++ ")".toList := rfl
  rw [e, defaultRegexFind, hp, hd, h]
  rfl

theorem contains_default_at (A : Str) :
    contains ("@default(".toList ++ A ++ ")".toList) "@default".toList = true := rfl

theorem takeWhile_no_rparen (A : Str) (h : ')' ∉ A) : A.takeWhile (fun c => c ≠ ')') = A := by
  rw [List.takeWhile_eq_self_iff]
  intro c hc
  have : c ≠ ')' := fun e => h (e ▸ hc)
  simpa using this


/-! ### Identifiers and the relation pattern -/

theorem char_le_iff (a b : Char) : a ≤ b ↔ a.toNat ≤ b.toNat := by
  rfl

theorem isWordChar_ascii (c : Char) (h : isWordChar c = true) : c.toNat ≤ 127 := by
  simp only [isWordChar, decide_eq_true_eq, char_le_iff] at h
  rcases h with h | h | h | h
  · have : '9'.toNat = 57 := rfl
    omega
  · have : 'z'.toNat = 122 := rfl
    omega
  · have : 'Z'.toNat = 90 := rfl
    omega
  · subst h; decide

theorem isWordChar_ne (c d : Char) (h : isWordChar c = true) (hd : isWordChar d = false) :
    c ≠ d := by
  intro e; subst e; rw [h] at hd; exact Bool.noConfusion hd

theorem isSeparator_word (U : UnicodeTables) (c : Char) (h : isWordChar c = true) :
    isSeparator U c = false := by
  have ha := isWordChar_ascii c h
  simp only [isWordChar, decide_eq_true_eq] at h
  simp only [isSeparator, ha, if_true]
  by_cases h1 : '0' ≤ c ∧ c ≤ '9'
  · simp [h1]
  · by_cases h2 : 'a' ≤ c ∧ c ≤ 'z'
    · simp [h1, h2]
    · by_cases h3 : 'A' ≤ c ∧ c ≤ 'Z'
      · simp [h1, h2, h3]
      · have h4 : c = '_' := by tauto
        simp [h1, h2, h3, h4]

theorem titleFrom_word (U : UnicodeTables) (s : Str) :
    ∀ prev, isWordChar prev = true → (∀ c ∈ s, isWordChar c = true) → titleFrom U prev s = s := by
  induction s with
  | nil => intros; rfl
  | cons r rs ih =>
    intro prev hp hs
    have hr := hs r (List.mem_cons_self _ _)
    simp only [titleFrom, isSeparator_word U prev hp, ih r hr (fun c hc => hs c (List.mem_cons_of_mem _ hc))]
    simp

theorem Title_word (U : UnicodeTables) (s : Str) (hs : ∀ c ∈ s, isWordChar c = true) :
    Title U s = capitalizeFirst s := by
  cases s with
  | nil => rfl
  | cons c cs =>
    have hc := hs c (List.mem_cons_self _ _)
    have hsep : isSeparator U ' ' = true := by simp [isSeparator]
    simp only [Title, titleFrom, hsep, if_true, capitalizeFirst,
      U.toTitle_ascii c (isWordChar_ascii c hc),
      titleFrom_word U cs c hc (fun d hd => hs d (List.mem_cons_of_mem _ hd))]

theorem captureToBracket_word (f rest : Str) (hf : ∀ c ∈ f, isWordChar c = true) :
    captureToBracket (f ++ ']' :: rest) = some f := by
  induction f with
  | nil => simp [captureToBracket]
  | cons a f ih =>
    have ha := hf a (List.mem_cons_self _ _)
    have h1 : a ≠ ']' := isWordChar_ne a ']' ha (by decide)
    have h2 : a ≠ '\n' := isWordChar_ne a '\n' ha (by decide)
    simp [captureToBracket, h1, h2, ih (fun d hd => hf d (List.mem_cons_of_mem _ hd))]

theorem isPrefixOf_word_false (rest : Str) (p : Str) :
    ∀ w : Str, (∀ c ∈ w, isWordChar c = true) → ']' ∉ p →
      (p ++ [':']).isPrefixOf (w ++ ']' :: rest) = false := by
  induction p with
  | nil =>
    intro w hw _
    cases w with
    | nil => simp [List.isPrefixOf]
    | cons c w =>
      have hc := hw c (List.mem_cons_self _ _)
      have : ':' ≠ c := fun e => isWordChar_ne c ':' hc (by decide) e.symm
      simp [List.isPrefixOf, this]
  | cons a p ih =>
    intro w hw hp
    have hp2 : ']' ∉ p := fun e => hp (List.mem_cons_of_mem _ e)
    cases w with
    | nil =>
      have : a ≠ ']' := fun e => hp (e ▸ List.mem_cons_self _ _)
      simp [List.isPrefixOf, this]
    | cons c w =>
      have := ih w (fun d hd => hw d (List.mem_cons_of_mem _ hd)) hp2
      simp [List.isPrefixOf, this]

theorem keyListRegexFind_skip_word (p rest : Str) (hp : ']' ∉ p) :
    ∀ w : Str, (∀ c ∈ w, isWordChar c = true) →
      keyListRegexFind (p ++ [':']) (w ++ ']' :: rest) = keyListRegexFind (p ++ [':']) rest := by
  intro w
  induction w with
  | nil =>
    intro _
    have := isPrefixOf_word_false rest p [] (by simp) hp
    simp only [List.nil_append] at this ⊢
    simp only [keyListRegexFind, hasPrefix, this]
    simp
  | cons c w ih =>
    intro hw
    have := isPrefixOf_word_false rest p (c :: w) hw hp
    simp only [List.cons_append] at this ⊢
    simp only [keyListRegexFind, hasPrefix, this]
    simpa using ih (fun d hd => hw d (List.mem_cons_of_mem _ hd))

theorem contains_append_right (a b sub : Str) (h : contains b sub = true) :
    contains (a ++ b) sub = true := by
  induction a with
  | nil => simpa using h
  | cons c a ih => simp [contains, ih]


/-! ### The annotation transformer on concrete fields -/

/-- C4 (evaluation of the code): the fragments of the `@id` and `@updatedAt` rules end without
the separator, so the column directive follows them directly; the tags differ from
`primaryKey;type:uuid;default:uuid_generate_v4();column:id` and
`default:now();autoUpdateTime;column:updatedAt`. -/
theorem transformGormTag_id_updatedAt_no_separator (U : UnicodeTables) :
    transformGormTag U ⟨"id".toList, "string".toList, true, "@id".toList⟩
      = "primaryKey;type:uuid;default:uuid_generate_v4()column:id".toList ∧
    transformGormTag U ⟨"updatedAt".toList, "time.Time".toList, true, "@updatedAt".toList⟩
      = "default:now();autoUpdateTimecolumn:updatedAt".toList ∧
    transformGormTag U ⟨"id".toList, "string".toList, true, "@id".toList⟩
      ≠ "primaryKey;type:uuid;default:uuid_generate_v4();column:id".toList ∧
    transformGormTag U ⟨"updatedAt".toList, "time.Time".toList, true, "@updatedAt".toList⟩
      ≠ "default:now();autoUpdateTime;column:updatedAt".toList := by
  have h1 : transformGormTag U ⟨"id".toList, "string".toList, true, "@id".toList⟩
      = "primaryKey;type:uuid;default:uuid_generate_v4()column:id".toList := rfl
  have h2 : transformGormTag U
      ⟨"updatedAt".toList, "time.Time".toList, true, "@updatedAt".toList⟩
      = "default:now();autoUpdateTimecolumn:updatedAt".toList := rfl
  refine ⟨h1, h2, ?_, ?_⟩
  · rw [h1]; decide
  · rw [h2]; decide

/-- C8 (evaluation of the code): the capture of the default pattern stops at the first `)`, so
`@default(autoincrement())` on field `id` yields `default:autoincrement(;column:id`, with the
closing parenthesis of the call lost. -/
theorem transformGormTag_default_call_truncated (U : UnicodeTables) :
    transformGormTag U ⟨"id".toList, "int".toList, true, "@default(autoincrement())".toList⟩
      = "default:autoincrement(;column:id".toList ∧
    transformGormTag U ⟨"id".toList, "int".toList, true, "@default(autoincrement())".toList⟩
      ≠ "default:autoincrement();column:id".toList := by
  have h1 : transformGormTag U
      ⟨"id".toList, "int".toList, true, "@default(autoincrement())".toList⟩
      = "default:autoincrement(;column:id".toList := rfl
  refine ⟨h1, ?_⟩
  rw [h1]; decide
theorem keyListRegexFind_fields (f r : Str) (hf : ∀ c ∈ f, isWordChar c = true) :
    keyListRegexFind "fields:".toList (relationAnnot f r)
      = ["fields: [".toList ++ f ++ "]".toList, f] := by
  have h := captureToBracket_word f (", references: [".toList ++ r ++ "])".toList) hf
  simp at h
  simp [relationAnnot, keyListRegexFind, hasPrefix, matchBracketList, isRegexSpace, h]

theorem keyListRegexFind_references (f r : Str) (hf : ∀ c ∈ f, isWordChar c = true)
    (hr : ∀ c ∈ r, isWordChar c = true) :
    keyListRegexFind "references:".toList (relationAnnot f r)
      = ["references: [".toList ++ r ++ "]".toList, r] := by
  have h := captureToBracket_word r ")".toList hr
  have hs := keyListRegexFind_skip_word "references".toList
    (", references: [".toList ++ r ++ "])".toList) (by decide) f hf
  simp at h hs
  simp [relationAnnot, keyListRegexFind, hasPrefix, matchBracketList, isRegexSpace, h, hs]

theorem relationAnnot_fires (f r : Str) :
    (contains (relationAnnot f r) "@relation".toList
      && contains (relationAnnot f r) "fields".toList
      && contains (relationAnnot f r) "references".toList) = true := by
  have h1 : contains (relationAnnot f r) "@relation".toList = true := by
    simp [relationAnnot, contains, hasPrefix]
  have h2 : contains (relationAnnot f r) "fields".toList = true := by
    simp [relationAnnot, contains, hasPrefix]
  have h3 : contains (relationAnnot f r) "references".toList = true := by
    have : relationAnnot f r
        = ("@relation(fields: [".toList ++ f) ++ ("], references: [".toList ++ r ++ "])".toList) := by
      simp [relationAnnot]
    rw [this]
    apply contains_append_right
    simp [contains, hasPrefix]
  rw [h1, h2, h3]; rfl

theorem matchBracketList_none (s : Str) (h : '[' ∉ s) : matchBracketList s = none := by
  unfold matchBracketList
  split
  · rfl
  · rename_i c rest heq
    have hc : c ∈ s := by
      have : c ∈ s.dropWhile isRegexSpace := by rw [heq]; exact List.mem_cons_self _ _
      exact (List.dropWhile_sublist _).subset this
    have : c ≠ '[' := fun e => h (e ▸ hc)
    simp [this]

theorem keyListRegexFind_none (key s : Str) (h : '[' ∉ s) : keyListRegexFind key s = [] := by
  induction s with
  | nil => rfl
  | cons a s ih =>
    have h2 : '[' ∉ s := fun e => h (List.mem_cons_of_mem _ e)
    have h3 : '[' ∉ (a :: s).drop key.length := fun e => h (List.mem_of_mem_drop e)
    simp only [keyListRegexFind, matchBracketList_none _ h3, ih h2]
    split <;> rfl

theorem transformGormTag_eq_lastRule (U : UnicodeTables) (field : Field) :
    transformGormTag U field = lastRuleFragment U field ++ "column:".toList ++ field.Name := by
  simp only [transformGormTag, lastRuleFragment, ruleOrder, List.filter, ruleFires]
  cases contains field.annotation_ "@unique".toList <;>
  cases contains field.annotation_ "@id".toList <;>
  cases contains field.annotation_ "@updatedAt".toList <;>
  cases contains field.annotation_ "@default".toList <;>
  cases (contains field.annotation_ "@relation".toList
        && contains field.annotation_ "fields".toList
        && contains field.annotation_ "references".toList) <;>
  by_cases h : (defaultRegexFind field.annotation_).length > 1 <;>
  simp [h, ruleFragment]

theorem contains_cons_skip (c : Char) (cs sub : Str) (h : hasPrefix (c :: cs) sub = false) :
    contains (c :: cs) sub = contains cs sub := by
  simp [contains, h]

theorem contains_idTag_unique (name : Str) :
    contains ("primaryKey;type:uuid;default:uuid_generate_v4()".toList ++ "column:".toList ++ name)
        "unique".toList
      = contains name "unique".toList := by
  have e : "primaryKey;type:uuid;default:uuid_generate_v4()".toList ++ "column:".toList ++ name
      = 'p' :: 'r' :: 'i' :: 'm' :: 'a' :: 'r' :: 'y' :: 'K' :: 'e' :: 'y' :: ';' :: 't' :: 'y'
        :: 'p' :: 'e' :: ':' :: 'u' :: 'u' :: 'i' :: 'd' :: ';' :: 'd' :: 'e' :: 'f' :: 'a' :: 'u'
        :: 'l' :: 't' :: ':' :: 'u' :: 'u' :: 'i' :: 'd' :: '_' :: 'g' :: 'e' :: 'n' :: 'e' :: 'r'
        :: 'a' :: 't' :: 'e' :: '_' :: 'v' :: '4' :: '(' :: ')' :: 'c' :: 'o' :: 'l' :: 'u' :: 'm'
        :: 'n' :: ':' :: name := by
    simp
  rw [e]
  repeat rw [contains_cons_skip _ _ _ (by simp [hasPrefix, List.isPrefixOf])]


/-! ### The annotation transformer: rule order, defaults, relations, malformed arguments -/

/-- C6 (amended): the tag is the fragment of the rule that comes last in the order unique, id,
updatedAt, default, relation among the rules that fire, followed by the column directive; for
an annotation with `@id` and `@unique` and none of `@updatedAt`, `@default`, `@relation` the
tag is the `@id` fragment followed by `column:` and the field name, the fragment has no
`unique` in it, and the tag contains `unique` exactly when the field name does. -/
theorem transformGormTag_last_rule_wins (U : UnicodeTables) (field : Field) :
    transformGormTag U field = lastRuleFragment U field ++ "column:".toList ++ field.Name ∧
    (contains field.annotation_ "@id".toList = true →
      contains field.annotation_ "@unique".toList = true →
      contains field.annotation_ "@updatedAt".toList = false →
      contains field.annotation_ "@default".toList = false →
      contains field.annotation_ "@relation".toList = false →
      transformGormTag U field
          = "primaryKey;type:uuid;default:uuid_generate_v4()".toList ++ "column:".toList
            ++ field.Name ∧
        contains "primaryKey;type:uuid;default:uuid_generate_v4()".toList "unique".toList
          = false ∧
        contains (transformGormTag U field) "unique".toList
          = contains field.Name "unique".toList) := by
  refine ⟨transformGormTag_eq_lastRule U field, ?_⟩
  intro h1 h2 h3 h4 h5
  have ht : transformGormTag U field
      = "primaryKey;type:uuid;default:uuid_generate_v4()".toList ++ "column:".toList
        ++ field.Name := by
    simp only [transformGormTag, h1, h2, h3, h4, h5]
    simp
  refine ⟨ht, by decide, ?_⟩
  rw [ht]
  exact contains_idTag_unique field.Name

/-- C6, at the field `id` annotated `@unique @id`: the hypotheses hold and the tag is the
`@id` fragment followed by `column:id`. -/
theorem transformGormTag_last_rule_wins_witness :
    (contains "@unique @id".toList "@id".toList = true ∧
      contains "@unique @id".toList "@unique".toList = true ∧
      contains "@unique @id".toList "@updatedAt".toList = false ∧
      contains "@unique @id".toList "@default".toList = false ∧
      contains "@unique @id".toList "@relation".toList = false) ∧
    transformGormTag asciiTables ⟨"id".toList, "string".toList, true, "@unique @id".toList⟩
      = "primaryKey;type:uuid;default:uuid_generate_v4()column:id".toList ∧
    contains
      (transformGormTag asciiTables ⟨"id".toList, "string".toList, true, "@unique @id".toList⟩)
      "unique".toList = false :=
  ⟨by decide,
   ((transformGormTag_last_rule_wins asciiTables
      ⟨"id".toList, "string".toList, true, "@unique @id".toList⟩).2
      (by decide) (by decide) (by decide) (by decide) (by decide)).1,
   ((transformGormTag_last_rule_wins asciiTables
      ⟨"id".toList, "string".toList, true, "@unique @id".toList⟩).2
      (by decide) (by decide) (by decide) (by decide) (by decide)).2.2.trans (by decide)⟩

/-- C6 as stated fails on the field `uniqueKey` annotated `@unique @id`: both markers are
there, none of the other three is, and the tag contains `unique` (in the column name). -/
theorem transformGormTag_id_tag_may_contain_unique :
    contains "@unique @id".toList "@id".toList = true ∧
    contains "@unique @id".toList "@unique".toList = true ∧
    contains "@unique @id".toList "@updatedAt".toList = false ∧
    contains "@unique @id".toList "@default".toList = false ∧
    contains "@unique @id".toList "@relation".toList = false ∧
    transformGormTag asciiTables
        ⟨"uniqueKey".toList, "string".toList, true, "@unique @id".toList⟩
      = "primaryKey;type:uuid;default:uuid_generate_v4()column:uniqueKey".toList ∧
    contains
      (transformGormTag asciiTables
        ⟨"uniqueKey".toList, "string".toList, true, "@unique @id".toList⟩)
      "unique".toList = true := by
  decide

/-- What the default rule does with the annotation `@default(A)` when the relation rule does
not fire: the capture of the default pattern is `A` up to its first `)`; if that capture
contains `now` (as in `@default(now())`) the tag is `default:now();column:` and the field
name, and if `A` contains neither `now` nor `)` the tag is `default:`, `A` verbatim,
`;column:` and the field name. -/
theorem transformGormTag_default_argument (U : UnicodeTables) (name ty : Str) (b : Bool)
    (A : Str)
    (hrel : (contains (defaultAnnot A) "@relation".toList
        && contains (defaultAnnot A) "fields".toList
        && contains (defaultAnnot A) "references".toList) = false) :
    (contains (A.takeWhile (fun c => c ≠ ')')) "now".toList = true →
      transformGormTag U ⟨name, ty, b, defaultAnnot A⟩
        = "default:now();column:".toList ++ name) ∧
    (contains A "now".toList = false → ')' ∉ A →
      transformGormTag U ⟨name, ty, b, defaultAnnot A⟩
        = "default:".toList ++ A ++ ";column:".toList ++ name) := by
  simp only [defaultAnnot] at hrel ⊢
  constructor
  · intro hnow
    simp only [transformGormTag, contains_default_at, defaultRegexFind_at, hrel]
    simp at hnow ⊢
    simp [hnow]
  · intro hnow hp
    simp only [transformGormTag, contains_default_at, defaultRegexFind_at, hrel,
      takeWhile_no_rparen A hp]
    simp at hnow ⊢
    simp [hnow]

/-- The default rule at `@default(now())` on `createdAt` and at `@default(true)` on `active`. -/
theorem transformGormTag_default_argument_witness :
    transformGormTag asciiTables
        ⟨"createdAt".toList, "time.Time".toList, true, defaultAnnot "now()".toList⟩
      = "default:now();column:createdAt".toList ∧
    transformGormTag asciiTables
        ⟨"active".toList, "bool".toList, true, defaultAnnot "true".toList⟩
      = "default:true;column:active".toList :=
  ⟨(transformGormTag_default_argument asciiTables "createdAt".toList "time.Time".toList true
      "now()".toList (by decide)).1 (by decide),
   (transformGormTag_default_argument asciiTables "active".toList "bool".toList true
      "true".toList (by decide)).2 (by decide) (by decide)⟩

/-- C7 (evaluation of the code): for `@default(concat(uuid(), now()))` on the field `code`, the
argument contains `now` and the relation rule does not fire, but the capture of the default
pattern stops at the first `)` and is `concat(uuid(`, which holds no `now`: the tag is
`default:concat(uuid(;column:code`, not `default:now();column:code`. -/
theorem transformGormTag_default_now_after_paren (U : UnicodeTables) :
    contains "concat(uuid(), now())".toList "now".toList = true ∧
    contains (defaultAnnot "concat(uuid(), now())".toList) "@relation".toList = false ∧
    defaultAnnot "concat(uuid(), now())".toList = "@default(concat(uuid(), now()))".toList ∧
    (defaultRegexFind "@default(concat(uuid(), now()))".toList).getD 1 []
      = "concat(uuid(".toList ∧
    transformGormTag U
        ⟨"code".toList, "string".toList, true, "@default(concat(uuid(), now()))".toList⟩
      = "default:concat(uuid(;column:code".toList ∧
    transformGormTag U
        ⟨"code".toList, "string".toList, true, "@default(concat(uuid(), now()))".toList⟩
      ≠ "default:now();column:code".toList := by
  have h1 : transformGormTag U
      ⟨"code".toList, "string".toList, true, "@default(concat(uuid(), now()))".toList⟩
      = "default:concat(uuid(;column:code".toList := rfl
  refine ⟨by decide, by decide, by decide, by decide, h1, ?_⟩
  rw [h1]; decide

/-- C9: for the annotation `@relation(fields: [f], references: [r])` with `f` and `r` made of
ASCII letters, digits and `_`, the tag is `foreignKey:` F `;references:` R `;column:` and the
field name, where F and R are `f` and `r` with the first character upper-cased. -/
theorem transformGormTag_relation (U : UnicodeTables) (name ty : Str) (b : Bool) (f r : Str)
    (hf : ∀ c ∈ f, isWordChar c = true) (hr : ∀ c ∈ r, isWordChar c = true) :
    transformGormTag U ⟨name, ty, b, relationAnnot f r⟩
      = "foreignKey:".toList ++ capitalizeFirst f ++ ";references:".toList ++ capitalizeFirst r
        ++ ";column:".toList ++ name := by
  simp only [transformGormTag, relationAnnot_fires, if_true, transformRelationTag,
    keyListRegexFind_fields f r hf, keyListRegexFind_references f r hf hr]
  simp [Title_word U f hf, Title_word U r hr]

/-- C9, at fields `[authorId]`, references `[id]` on the field `author`. -/
theorem transformGormTag_relation_witness :
    (∀ c ∈ "authorId".toList, isWordChar c = true) ∧
    (∀ c ∈ "id".toList, isWordChar c = true) ∧
    relationAnnot "authorId".toList "id".toList
      = "@relation(fields: [authorId], references: [id])".toList ∧
    transformGormTag asciiTables
        ⟨"author".toList, "User".toList, false,
          relationAnnot "authorId".toList "id".toList⟩
      = "foreignKey:AuthorId;references:Id;column:author".toList :=
  ⟨by decide, by decide, by decide,
   transformGormTag_relation asciiTables "author".toList "User".toList false
     "authorId".toList "id".toList (by decide) (by decide)⟩

/-- C10 (amended): no error is raised (the function is total); when the annotation has no
`)` at all (so a `@default(` in it is unclosed) and no other rule fires, the tag is `column:`
and the field name; when the annotation mentions `@relation`, `fields` and `references` but
has no `[`, the relation rule still writes its fragment with both values empty and the tag is
`foreignKey:;references:;column:` and the field name. -/
theorem transformGormTag_malformed_arguments (U : UnicodeTables) (field : Field) :
    (')' ∉ field.annotation_ →
      contains field.annotation_ "@unique".toList = false →
      contains field.annotation_ "@id".toList = false →
      contains field.annotation_ "@updatedAt".toList = false →
      (contains field.annotation_ "@relation".toList
        && contains field.annotation_ "fields".toList
        && contains field.annotation_ "references".toList) = false →
      transformGormTag U field = "column:".toList ++ field.Name) ∧
    ('[' ∉ field.annotation_ →
      contains field.annotation_ "@relation".toList = true →
      contains field.annotation_ "fields".toList = true →
      contains field.annotation_ "references".toList = true →
      transformGormTag U field = "foreignKey:;references:;column:".toList ++ field.Name) := by
  constructor
  · intro hp h1 h2 h3 h4
    simp only [transformGormTag, h1, h2, h3, h4, defaultRegexFind_none _ hp]
    simp
  · intro hb h1 h2 h3
    simp only [transformGormTag, transformRelationTag, h1, h2, h3, keyListRegexFind_none _ _ hb]
    simp [Title, titleFrom]

/-- C10, at `@default(5` on the field `count` and at
`@relation(fields: authorId, references: id)` on the field `author`. -/
theorem transformGormTag_malformed_arguments_witness :
    contains "@default(5".toList "@default(".toList = true ∧
    transformGormTag asciiTables ⟨"count".toList, "int".toList, true, "@default(5".toList⟩
      = "column:count".toList ∧
    transformGormTag asciiTables
        ⟨"author".toList, "User".toList, false,
          "@relation(fields: authorId, references: id)".toList⟩
      = "foreignKey:;references:;column:author".toList :=
  ⟨by decide,
   (transformGormTag_malformed_arguments asciiTables
      ⟨"count".toList, "int".toList, true, "@default(5".toList⟩).1
      (by decide) (by decide) (by decide) (by decide) (by decide),
   (transformGormTag_malformed_arguments asciiTables
      ⟨"author".toList, "User".toList, false,
        "@relation(fields: authorId, references: id)".toList⟩).2
      (by decide) (by decide) (by decide) (by decide)⟩

/-- C10 as stated fails on `@relation(fields: authorId, references: id)`: the tag is not the
column directive alone. -/
theorem transformGormTag_relation_without_brackets :
    transformGormTag asciiTables
        ⟨"author".toList, "User".toList, false,
          "@relation(fields: authorId, references: id)".toList⟩
      = "foreignKey:;references:;column:author".toList ∧
    transformGormTag asciiTables
        ⟨"author".toList, "User".toList, false,
          "@relation(fields: authorId, references: id)".toList⟩
      ≠ "column:author".toList := by
  decide

/-! ### The schema parser -/

theorem findAllFrom_none {α : Type} (matchAt : Str → Option (α × Nat)) (c : Char) (cs : Str)
    (h : matchAt (c :: cs) = none) :
    findAllFrom matchAt 0 (c :: cs) = findAllFrom matchAt 0 cs := by
  rw [findAllFrom, h]

theorem findAllFrom_skip {α : Type} (matchAt : Str → Option (α × Nat)) (x rest : Str) :
    findAllFrom matchAt x.length (x ++ rest) = findAllFrom matchAt 0 rest := by
  induction x with
  | nil => rfl
  | cons c x ih => rw [List.length_cons, List.cons_append, findAllFrom, ih]

theorem findAllFrom_match {α : Type} (matchAt : Str → Option (α × Nat)) (x rest : Str) (m : α)
    (hx : x ≠ []) (h : matchAt (x ++ rest) = some (m, x.length)) :
    findAllFrom matchAt 0 (x ++ rest) = m :: findAllFrom matchAt 0 rest := by
  cases x with
  | nil => exact absurd rfl hx
  | cons c x =>
    rw [List.cons_append] at h ⊢
    rw [findAllFrom, h]
    simp only [List.length_cons, Nat.add_sub_cancel]
    rw [findAllFrom_skip]

theorem isWordChar_not_space (c : Char) (h : isWordChar c = true) : isRegexSpace c = false := by
  cases hs : isRegexSpace c with
  | false => rfl
  | true =>
    simp only [isRegexSpace, Bool.or_eq_true, decide_eq_true_eq] at hs
    rcases hs with (((hs | hs) | hs) | hs) | hs <;> (subst hs; revert h; decide)

theorem isRegexSpace_not_word (c : Char) (h : isRegexSpace c = true) : isWordChar c = false := by
  cases hw : isWordChar c with
  | false => rfl
  | true => rw [isWordChar_not_space c hw] at h; exact Bool.noConfusion h

theorem takeWhile_append_stop (p : Char → Bool) (w t : Str) (hw : ∀ c ∈ w, p c = true)
    (ht : ∀ d ∈ t.head?, p d = false) :
    (w ++ t).takeWhile p = w ∧ (w ++ t).dropWhile p = t := by
  induction w with
  | nil =>
    cases t with
    | nil => simp
    | cons d t =>
      have := ht d (by simp)
      simp [List.takeWhile, List.dropWhile, this]
  | cons c w ih =>
    have hc := hw c (List.mem_cons_self _ _)
    have := ih (fun d hd => hw d (List.mem_cons_of_mem _ hd))
    simp [List.takeWhile, List.dropWhile, hc, this.1, this.2]

theorem matchEnumValueAt_token (w v rest : Str) (hw : ∀ c ∈ w, isRegexSpace c = true)
    (hv : ∀ c ∈ v, isWordChar c = true) (hne : v ≠ [])
    (hrest : ∀ d ∈ rest.head?, isWordChar d = false) :
    matchEnumValueAt ((w ++ v) ++ rest) = some (v, (w ++ v).length) := by
  have hvhead : ∀ d ∈ (v ++ rest).head?, isRegexSpace d = false := by
    cases v with
    | nil => exact absurd rfl hne
    | cons a v =>
      intro d hd
      simp at hd
      subst hd
      exact isWordChar_not_space _ (hv _ (List.mem_cons_self _ _))
  have h1 := takeWhile_append_stop isRegexSpace w (v ++ rest) hw hvhead
  have h2 := takeWhile_append_stop isWordChar v rest hv hrest
  have hve : v.isEmpty = false := by cases v <;> simp_all
  simp only [matchEnumValueAt, List.append_assoc, h1.1, h1.2, h2.1, hve, List.length_append]
  rfl

theorem parseEnumValues_space (s : Str) (hs : ∀ c ∈ s, isRegexSpace c = true) :
    findAllFrom matchEnumValueAt 0 s = [] := by
  induction s with
  | nil => rfl
  | cons c s ih =>
    have h1 := takeWhile_append_stop isRegexSpace (c :: s) [] hs (by simp)
    simp only [List.append_nil] at h1
    have hm : matchEnumValueAt (c :: s) = none := by
      simp only [matchEnumValueAt, h1.2]
      rfl
    rw [findAllFrom_none _ _ _ hm]
    exact ih (fun d hd => hs d (List.mem_cons_of_mem _ hd))

theorem enumBodyText_head (tokens : List (Str × Str)) (trailing : Str)
    (hsep : ∀ t ∈ tokens, (∀ c ∈ t.1, isRegexSpace c = true) ∧ t.1 ≠ [])
    (htr : ∀ c ∈ trailing, isRegexSpace c = true) :
    ∀ d ∈ (enumBodyText tokens trailing).head?, isWordChar d = false := by
  intro d hd
  apply isRegexSpace_not_word
  cases tokens with
  | nil =>
    simp only [enumBodyText, List.map_nil, concatAll, List.nil_append] at hd
    cases trailing with
    | nil => simp at hd
    | cons a tr => simp at hd; subst hd; exact htr _ (List.mem_cons_self _ _)
  | cons t ts =>
    obtain ⟨h1, h2⟩ := hsep t (List.mem_cons_self _ _)
    cases hw : t.1 with
    | nil => exact absurd hw h2
    | cons a w =>
      simp only [enumBodyText, List.map_cons, concatAll, hw, List.cons_append, List.head?_cons,
        Option.mem_def, Option.some.injEq] at hd
      subst hd
      exact h1 _ (hw ▸ List.mem_cons_self _ _)

theorem parseFields_skip_leading (j s : Str) (hj : ∀ c ∈ j, isWordChar c = false) :
    parseFields (j ++ s) = parseFields s := by
  unfold parseFields
  congr 1
  induction j with
  | nil => rfl
  | cons c j ih =>
    have hc := hj c (List.mem_cons_self _ _)
    have hm : matchFieldAt (c :: (j ++ s)) = none := by
      simp [matchFieldAt, hc]
    rw [List.cons_append, findAllFrom_none _ _ _ hm]
    exact ih (fun d hd => hj d (List.mem_cons_of_mem _ hd))

theorem hasPrefix_word_false (s : Str) (d : Char) (rest : Str) (hd : isWordChar d = false)
   (hs : ∀ x ∈ s, isWordChar x = true) (hne : s ≠ []) : hasPrefix s (d :: rest) = false := by
  cases s with
  | nil => exact absurd rfl hne
  | cons a s =>
    have ha := hs a (List.mem_cons_self _ _)
    have : d ≠ a := fun e => by rw [e, ha] at hd; exact Bool.noConfusion hd
    simp [hasPrefix, List.isPrefixOf, this]

theorem contains_word_false (s : Str) (d : Char) (rest : Str) (hd : isWordChar d = false)
    (hs : ∀ x ∈ s, isWordChar x = true) : contains s (d :: rest) = false := by
  induction s with
  | nil => simp [contains]
  | cons a s ih =>
    simp only [contains, Bool.or_eq_false_iff]
    exact ⟨hasPrefix_word_false (a :: s) d rest hd hs (by simp),
      ih (fun x hx => hs x (List.mem_cons_of_mem _ hx))⟩

theorem replaceFirst_word_mark (s : Str) (hs : ∀ x ∈ s, isWordChar x = true) :
    replaceFirst (s ++ "?".toList) "?".toList [] = s := by
  induction s with
  | nil => decide
  | cons a s ih =>
    have ha := hs a (List.mem_cons_self _ _)
    have : '?' ≠ a := fun e => by rw [← e] at ha; revert ha; decide
    have hp : hasPrefix (a :: (s ++ "?".toList)) "?".toList = false := by
      simp [hasPrefix, List.isPrefixOf, this]
    rw [List.cons_append, replaceFirst, hp, ih (fun x hx => hs x (List.mem_cons_of_mem _ hx))]
    rfl

theorem contains_mark_append (s : Str) : contains (s ++ "?".toList) "?".toList = true := by
  induction s with
  | nil => decide
  | cons a s ih => rw [List.cons_append, contains, ih, Bool.or_true]


/-- C14 (amended): `parseFields` raises no error and passes over text that the field pattern
does not match: a stretch without word characters in front of a body yields no field and
leaves the fields of the body as they are, and for the lines `id Int`, `!!!`, `name String`
the result is the two fields `id` (int) and `name` (string).  The white space between name
and type may be a line break, so a line with one bare token is not passed over: for the lines
`id Int`, `garbage`, `name String` the result is `id` (int) and `garbage` of the non-built-in
type `name`. -/
theorem parseFields_skips_unmatched_text (j s : Str) (hj : ∀ c ∈ j, isWordChar c = false) :
    parseFields (j ++ s) = parseFields s ∧
    parseFields "id Int\n!!!\nname String".toList
      = [⟨"id".toList, "int".toList, true, []⟩, ⟨"name".toList, "string".toList, true, []⟩] ∧
    parseFields "id Int\ngarbage\nname String".toList
      = [⟨"id".toList, "int".toList, true, []⟩,
         ⟨"garbage".toList, "name".toList, false, []⟩] :=
  ⟨parseFields_skip_leading j s hj, by decide, by decide⟩

/-- C14, at the stretch `!!!` and a line break in front of `name String`. -/
theorem parseFields_skips_unmatched_text_witness :
    (∀ c ∈ "!!!\n".toList, isWordChar c = false) ∧
    parseFields ("!!!\n".toList ++ "name String".toList)
      = [⟨"name".toList, "string".toList, true, []⟩] :=
  ⟨by decide,
   (parseFields_skips_unmatched_text "!!!\n".toList "name String".toList (by decide)).1.trans
     (by decide)⟩

/-- C14 as stated fails on the lines `id Int`, `garbage`, `name String`: the result is not the
two fields `id` and `name`, it holds a field `garbage` and no field `name`. -/
theorem parseFields_bare_token_takes_next_line :
    parseFields "id Int\ngarbage\nname String".toList
      ≠ [⟨"id".toList, "int".toList, true, []⟩, ⟨"name".toList, "string".toList, true, []⟩] ∧
    (parseFields "id Int\ngarbage\nname String".toList).map (fun f => f.Name)
      = ["id".toList, "garbage".toList] := by
  decide

/-- C15: an identifier (letters, digits, underscore) that is not one of the six scalar type
names is returned unchanged and flagged as not built-in, with and without the `?` marker;
there is no `*` wrapper. -/
theorem mapPrismaTypeToGo_reference (s : Str) (hs : ∀ c ∈ s, isWordChar c = true)
    (hn : s ∉ scalarTable.map Prod.fst) :
    mapPrismaTypeToGo s = (s, false) ∧ mapPrismaTypeToGo (s ++ "?".toList) = (s, false) := by
  have h1 : contains s "?".toList = false := contains_word_false s '?' [] (by decide) hs
  have h2 : contains s "[]".toList = false := contains_word_false s '[' [']'] (by decide) hs
  simp only [scalarTable, List.map_cons, List.map_nil, List.mem_cons, List.mem_nil_iff,
    or_false, not_or] at hn
  obtain ⟨n1, n2, n3, n4, n5, n6⟩ := hn
  constructor
  · simp only [mapPrismaTypeToGo, transformQuestionMarks, h1, if_false, Bool.false_eq_true,
      n1, n2, n3, n4, n5, n6, transformArrayNotation, h2, Bool.false_and]
  · simp only [mapPrismaTypeToGo, transformQuestionMarks, contains_mark_append, if_true,
      replaceFirst_word_mark s hs, n1, n2, n3, n4, n5, n6, if_false, transformArrayNotation,
      h2, Bool.false_eq_true, Bool.and_false]

/-- C15, at the reference type `Role`. -/
theorem mapPrismaTypeToGo_reference_witness :
    (∀ c ∈ "Role".toList, isWordChar c = true) ∧
    "Role".toList ∉ scalarTable.map Prod.fst ∧
    mapPrismaTypeToGo "Role".toList = ("Role".toList, false) ∧
    mapPrismaTypeToGo "Role?".toList = ("Role".toList, false) :=
  ⟨by decide, by decide,
   mapPrismaTypeToGo_reference "Role".toList (by decide) (by decide)⟩

/-- C16: for each of the six scalar schema types `T`, the type returned for `T[]?` does not
begin with `*`; for `Int[]?` it is `[]Int`, flagged as not built-in. -/
theorem mapPrismaTypeToGo_nullable_array_unwrapped :
    mapPrismaTypeToGo "Int[]?".toList = ("[]Int".toList, false) ∧
    hasPrefix (mapPrismaTypeToGo "Int[]?".toList).1 "*".toList = false ∧
    scalarTable.all (fun p =>
      !hasPrefix (mapPrismaTypeToGo (p.1 ++ "[]?".toList)).1 "*".toList) = true := by
  decide

/-- C18 (evaluation of the code): for the lines `id String @unique @id` and `name String`, the
optional group of the field pattern takes the first annotation only; the second one is then
read as a field `id` whose type is the next token `name`, and the declaration `name String`
is lost. -/
theorem parseFields_two_annotations :
    parseFields "id String @unique @id\nname String".toList
      = [⟨"id".toList, "string".toList, true, " @unique".toList⟩,
         ⟨"id".toList, "name".toList, false, []⟩] ∧
    contains " @unique".toList "@id".toList = false := by
  decide

/-- C19: for an enum body made of values (non-empty runs of letters, digits, underscore), each
preceded by white space that is non-empty from the second value on, and followed by trailing
white space, `parseEnumValues` returns exactly the values, in order. -/
theorem parseEnumValues_tokens (tokens : List (Str × Str)) (trailing : Str)
    (hsp : ∀ t ∈ tokens, ∀ c ∈ t.1, isRegexSpace c = true)
    (hval : ∀ t ∈ tokens, t.2 ≠ [] ∧ ∀ c ∈ t.2, isWordChar c = true)
    (hsep : ∀ t ∈ tokens.tail, t.1 ≠ [])
    (htr : ∀ c ∈ trailing, isRegexSpace c = true) :
    parseEnumValues (enumBodyText tokens trailing) = tokens.map (fun t => t.2) := by
  unfold parseEnumValues
  induction tokens with
  | nil =>
    simp only [enumBodyText, List.map_nil, concatAll, List.nil_append]
    exact parseEnumValues_space trailing htr
  | cons t ts ih =>
    have hrest := enumBodyText_head ts trailing
      (fun u hu => ⟨hsp u (List.mem_cons_of_mem _ hu), hsep u hu⟩) htr
    obtain ⟨hne, hv⟩ := hval t (List.mem_cons_self _ _)
    have hm := matchEnumValueAt_token t.1 t.2 (enumBodyText ts trailing)
      (hsp t (List.mem_cons_self _ _)) hv hne hrest
    have hbody : enumBodyText (t :: ts) trailing = (t.1 ++ t.2) ++ enumBodyText ts trailing := by
      simp [enumBodyText, concatAll]
    have hx : t.1 ++ t.2 ≠ [] := by simp [hne]
    rw [hbody, findAllFrom_match _ _ _ _ hx hm, List.map_cons]
    congr 1
    exact ih (fun u hu => hsp u (List.mem_cons_of_mem _ hu))
      (fun u hu => hval u (List.mem_cons_of_mem _ hu))
      (fun u hu => hsep u (List.mem_of_mem_tail hu))

/-- C19, at the body with `ADMIN` and `MEMBER` on two lines separated by a blank line. -/
theorem parseEnumValues_tokens_witness :
    enumBodyText [("\n  ".toList, "ADMIN".toList), ("\n\n  ".toList, "MEMBER".toList)]
        " \n".toList
      = "\n  ADMIN\n\n  MEMBER \n".toList ∧
    parseEnumValues
        (enumBodyText [("\n  ".toList, "ADMIN".toList), ("\n\n  ".toList, "MEMBER".toList)]
          " \n".toList)
      = ["ADMIN".toList, "MEMBER".toList] :=
  ⟨by decide,
   parseEnumValues_tokens
     [("\n  ".toList, "ADMIN".toList), ("\n\n  ".toList, "MEMBER".toList)] " \n".toList
     (by decide) (by decide) (by decide) (by decide)⟩

/-! ### The pipeline driver -/

/-- C17 (evaluation of the code): `WriteStructToFile` returns an error when a step fails, but
`main` does not look at it: for the end-to-end schema and whatever the outcomes of the
writes, `main` prints `Successfully wrote User` and ends with exit status 0. -/
theorem main_ignores_write_failure (U : UnicodeTables) (lower : Str → Str) (path : Str)
    (write : Model → Str → WriteOutcome) :
    WriteStructToFile lower (WriteOutcome.mkdirFails "permission denied".toList) userModel
      = some "failed to create models directory: permission denied".toList ∧
    main U lower ["main".toList, path] (fun _ => Except.ok userRoleSchema) write
      = ("Successfully wrote User".toList, 0) := by
  refine ⟨rfl, ?_⟩
  have h1 : parseModels userRoleSchema = [userModel] := by decide
  have h2 : parseEnums userRoleSchema
      = [⟨"Role".toList, ["ADMIN".toList, "MEMBER".toList]⟩] := by decide
  simp [main, ReadSchemaFile, ParseSchemaFile, h1, h2, mainLoop, userModel]

/-! ### The enum lookup -/

theorem foldl_insert_apply (enums : List Enum) (m : EnumMap) (k : Str) :
    (enums.foldl (fun m e => m.insert e.Name e) m) k
      = ((enums.reverse.find? (fun e => e.Name = k)).orElse (fun _ => m k)) := by
  induction enums generalizing m with
  | nil => simp
  | cons e enums ih =>
    rw [List.foldl_cons, ih, List.reverse_cons, List.find?_append]
    cases List.find? (fun e => decide (e.Name = k)) enums.reverse with
    | some x => simp
    | none =>
      by_cases h : e.Name = k
      · simp [EnumMap.insert, h]
      · have h1 : ¬ k = e.Name := fun h2 => h h2.symm
        simp [EnumMap.insert, h, h1]

theorem buildEnumMap_apply (enums : List Enum) (k : Str) :
    buildEnumMap enums k = enums.reverse.find? (fun e => e.Name = k) := by
  simp [buildEnumMap, foldl_insert_apply, EnumMap.empty]

theorem buildEnumMap_get (enums : List Enum) (k : Str) :
    (buildEnumMap enums).get k = enumNamed enums k := by
  simp [EnumMap.get, enumNamed, buildEnumMap_apply]

theorem find?_perm_of_nodup (l l1 : List Enum) (k : Str) (hp : l1.Perm l)
    (hn : (l.map Enum.Name).Nodup) :
    l1.find? (fun e => e.Name = k) = l.find? (fun e => e.Name = k) := by
  cases h : l.find? (fun e => e.Name = k) with
  | none =>
    rw [List.find?_eq_none] at h ⊢
    intro x hx
    exact h x (hp.mem_iff.mp hx)
  | some e =>
    have he : e ∈ l := List.mem_of_find?_eq_some h
    have hk : e.Name = k := by simpa using List.find?_some h
    cases h1 : l1.find? (fun e => e.Name = k) with
    | none =>
      rw [List.find?_eq_none] at h1
      exact absurd (by simpa using hk) (h1 e (hp.mem_iff.mpr he))
    | some e1 =>
      have he1 : e1 ∈ l := hp.mem_iff.mp (List.mem_of_find?_eq_some h1)
      have hk1 : e1.Name = k := by simpa using List.find?_some h1
      have : e1 = e := List.inj_on_of_nodup_map hn he1 he (hk1.trans hk.symm)
      rw [this]

/-- C20: when the names of the enums are pairwise distinct, `GenerateGoStruct` returns the same
text for every permutation of the enum list. -/
theorem GenerateGoStruct_enum_order_irrelevant (U : UnicodeTables) (model : Model)
    (enums enums1 : List Enum)
    (hn : (enums.map Enum.Name).Nodup) (hp : enums1.Perm enums) :
    GenerateGoStruct U model enums1 = GenerateGoStruct U model enums := by
  have hmap : buildEnumMap enums1 = buildEnumMap enums := by
    funext k
    rw [buildEnumMap_apply, buildEnumMap_apply]
    exact find?_perm_of_nodup enums.reverse enums1.reverse k
      ((List.reverse_perm enums1).trans (hp.trans (List.reverse_perm enums).symm))
      (by rw [List.map_reverse]; exact List.nodup_reverse.mpr hn)
  unfold GenerateGoStruct
  rw [hmap]

/-- C20, at the enum list `Role`, `Status` and its swap, for the end-to-end model. -/
theorem GenerateGoStruct_enum_order_irrelevant_witness :
    ([(⟨"Role".toList, ["ADMIN".toList]⟩ : Enum), ⟨"Status".toList, ["ON".toList]⟩].map
        Enum.Name).Nodup ∧
    GenerateGoStruct asciiTables userModel
        [⟨"Status".toList, ["ON".toList]⟩, ⟨"Role".toList, ["ADMIN".toList]⟩]
      = GenerateGoStruct asciiTables userModel
        [⟨"Role".toList, ["ADMIN".toList]⟩, ⟨"Status".toList, ["ON".toList]⟩] :=
  ⟨by decide,
   GenerateGoStruct_enum_order_irrelevant asciiTables userModel
     [⟨"Role".toList, ["ADMIN".toList]⟩, ⟨"Status".toList, ["ON".toList]⟩]
     [⟨"Status".toList, ["ON".toList]⟩, ⟨"Role".toList, ["ADMIN".toList]⟩]
     (by decide) (List.Perm.swap _ _ _)⟩

theorem buildAcronym_eq_filter (U : UnicodeTables) (name : Str) :
    buildAcronym U name = name.filter U.isUpper := by
  have key : ∀ (l acc : Str),
      l.foldl (fun acronym ch => if U.isUpper ch then acronym ++ [ch] else acronym) acc
        = acc ++ l.filter U.isUpper := by
    intro l
    induction l with
    | nil => simp
    | cons c l ih =>
      intro acc
      rw [List.foldl_cons, ih]
      cases h : U.isUpper c <;> simp [List.filter, h]
  simpa using key name []

theorem enumBlock_eq_spec (U : UnicodeTables) (enums : List Enum) (name : Str) :
    enumBlock U (buildEnumMap enums) name = specEnumBlock U (enumNamed enums name) := by
  simp only [enumBlock, enumStep, buildEnumMap_get, foldl_append_texts, specEnumBlock,
    List.append_assoc, List.nil_append]

/-! ### ASCII text and the generated file -/

theorem isAsciiStr_iff (s : Str) : isAsciiStr s = true ↔ ∀ c ∈ s, c.toNat ≤ 127 := by
  simp [isAsciiStr, List.all_eq_true]

theorem dropWhile_isSpace_ascii (U : UnicodeTables) (s : Str) (hs : ∀ c ∈ s, c.toNat ≤ 127) :
    s.dropWhile U.isSpace = s.dropWhile asciiTables.isSpace := by
  induction s with
  | nil => rfl
  | cons c s ih =>
    have hc := hs c (List.mem_cons_self _ _)
    have e : U.isSpace c = asciiTables.isSpace c := U.isSpace_ascii c hc
    simp only [List.dropWhile, e, ih (fun d hd => hs d (List.mem_cons_of_mem _ hd))]

theorem TrimSpace_ascii (U : UnicodeTables) (s : Str) (hs : ∀ c ∈ s, c.toNat ≤ 127) :
    TrimSpace U s = TrimSpace asciiTables s := by
  have h1 := dropWhile_isSpace_ascii U s hs
  have h2 : ∀ c ∈ (s.dropWhile asciiTables.isSpace).reverse, c.toNat ≤ 127 := by
    intro c hc
    exact hs c ((List.dropWhile_sublist _).subset (List.mem_reverse.mp hc))
  simp only [TrimSpace, h1, dropWhile_isSpace_ascii U _ h2]

theorem TrimSpace_subset (U : UnicodeTables) (s : Str) : ∀ c ∈ TrimSpace U s, c ∈ s := by
  intro c hc
  simp only [TrimSpace, List.mem_reverse] at hc
  exact (List.dropWhile_sublist _).subset
    (List.mem_reverse.mp ((List.dropWhile_sublist _).subset hc))

theorem captureToBracket_subset (s g : Str) (h : captureToBracket s = some g) :
    ∀ c ∈ g, c ∈ s := by
  induction s generalizing g with
  | nil => simp [captureToBracket] at h
  | cons a s ih =>
    simp only [captureToBracket] at h
    split at h
    · cases h; simp
    · split at h
      · cases h
      · cases hg : captureToBracket s with
        | none => simp [hg] at h
        | some g1 =>
          simp [hg] at h
          subst h
          intro c hc
          rcases List.mem_cons.mp hc with rfl | hc
          · exact List.mem_cons_self _ _
          · exact List.mem_cons_of_mem _ (ih g1 hg c hc)

theorem matchBracketList_subset (s ws g : Str) (h : matchBracketList s = some (ws, g)) :
    ∀ c ∈ g, c ∈ s := by
  unfold matchBracketList at h
  split at h
  · cases h
  · rename_i c rest heq
    split at h
    · cases hg : captureToBracket rest with
      | none => simp [hg] at h
      | some g1 =>
        simp [hg] at h
        obtain ⟨_, rfl⟩ := h
        intro d hd
        have : d ∈ c :: rest := List.mem_cons_of_mem _ (captureToBracket_subset rest g1 hg d hd)
        rw [← heq] at this
        exact (List.dropWhile_sublist _).subset this
    · cases h

theorem keyListRegexFind_subset (key s : Str) :
    ∀ c ∈ (keyListRegexFind key s).getD 1 [], c ∈ s := by
  induction s with
  | nil => simp [keyListRegexFind]
  | cons a s ih =>
    intro c hc
    simp only [keyListRegexFind] at hc
    split at hc
    · split at hc
      · rename_i ws g hm
        simp at hc
        exact List.mem_of_mem_drop (matchBracketList_subset _ ws g hm c hc)
      · exact List.mem_cons_of_mem _ (ih c hc)
    · exact List.mem_cons_of_mem _ (ih c hc)

theorem transformRelationTag_ascii (U : UnicodeTables) (field : Field)
    (h : ∀ c ∈ field.annotation_, c.toNat ≤ 127) :
    transformRelationTag U field = transformRelationTag asciiTables field := by
  have h1 := Title_ascii U ((keyListRegexFind "fields:".toList field.annotation_).getD 1 [])
    (fun c hc => h c (keyListRegexFind_subset _ _ c hc))
  have h2 := Title_ascii U ((keyListRegexFind "references:".toList field.annotation_).getD 1 [])
    (fun c hc => h c (keyListRegexFind_subset _ _ c hc))
  have h0 : Title U [] = Title asciiTables [] := rfl
  simp only [transformRelationTag]
  split <;> split <;> simp only [h0, h1, h2]

theorem transformGormTag_ascii (U : UnicodeTables) (field : Field)
    (h : ∀ c ∈ field.annotation_, c.toNat ≤ 127) :
    transformGormTag U field = transformGormTag asciiTables field := by
  simp only [transformGormTag, transformRelationTag_ascii U field h]

theorem transformAttributes_ascii (U : UnicodeTables) (field : Field)
    (h : ∀ c ∈ field.annotation_, c.toNat ≤ 127) :
    transformAttributes U field = transformAttributes asciiTables field := by
  have ht := TrimSpace_ascii U field.annotation_ h
  have hg := transformGormTag_ascii U
    { field with annotation_ := TrimSpace asciiTables field.annotation_ }
    (fun c hc => h c (TrimSpace_subset _ _ c hc))
  simp only [transformAttributes, ht, hg]

theorem enumNamed_mem (enums : List Enum) (name : Str)
    (h : enums.any (fun e => e.Name = name) = true) :
    enumNamed enums name ∈ enums ∧ (enumNamed enums name).Name = name := by
  unfold enumNamed
  cases hf : enums.reverse.find? (fun e => e.Name = name) with
  | none =>
    rw [List.find?_eq_none] at hf
    simp only [List.any_eq_true, decide_eq_true_eq] at h
    obtain ⟨e, he, hn⟩ := h
    exact absurd (by simpa using hn) (hf e (List.mem_reverse.mpr he))
  | some e =>
    exact ⟨List.mem_reverse.mp (List.mem_of_find?_eq_some hf), by simpa using List.find?_some hf⟩

theorem enumNamed_ascii (enums : List Enum) (name : Str) (he : isAsciiEnums enums = true) :
    ∀ c ∈ (enumNamed enums name).Name, c.toNat ≤ 127 := by
  unfold enumNamed
  cases hf : enums.reverse.find? (fun e => e.Name = name) with
  | none => simp
  | some e =>
    have hm : e ∈ enums := List.mem_reverse.mp (List.mem_of_find?_eq_some hf)
    simp only [isAsciiEnums, List.all_eq_true, Bool.and_eq_true] at he
    exact (isAsciiStr_iff _).mp (he e hm).1

theorem specEnumBlock_ascii (U : UnicodeTables) (E : Enum) (h : ∀ c ∈ E.Name, c.toNat ≤ 127) :
    specEnumBlock U E = specEnumBlock asciiTables E := by
  simp only [specEnumBlock, buildAcronym_ascii U E.Name h]

theorem specFieldLine_ascii (U : UnicodeTables) (enums : List Enum) (f : Field)
    (hn : ∀ c ∈ f.Name, c.toNat ≤ 127) (ha : ∀ c ∈ f.annotation_, c.toNat ≤ 127) :
    specFieldLine U enums f = specFieldLine asciiTables enums f := by
  simp only [specFieldLine, Title_ascii U f.Name hn, transformAttributes_ascii U f ha]

theorem GenerateGoStruct_ascii (U : UnicodeTables) (model : Model) (enums : List Enum)
    (hm : isAsciiModel model = true) (he : isAsciiEnums enums = true) :
    GenerateGoStruct U model enums = GenerateGoStruct asciiTables model enums := by
  simp only [isAsciiModel, Bool.and_eq_true, List.all_eq_true] at hm
  have h1 : model.Fields.map (specFieldLine U enums)
      = model.Fields.map (specFieldLine asciiTables enums) := by
    apply List.map_congr_left
    intro f hf
    exact specFieldLine_ascii U enums f ((isAsciiStr_iff _).mp (hm.2 f hf).1.1)
      ((isAsciiStr_iff _).mp (hm.2 f hf).2)
  have h2 : (referencedEnumNames enums model.Fields).map (enumBlock U (buildEnumMap enums))
      = (referencedEnumNames enums model.Fields).map
          (enumBlock asciiTables (buildEnumMap enums)) := by
    apply List.map_congr_left
    intro name _
    rw [enumBlock_eq_spec, enumBlock_eq_spec]
    exact specEnumBlock_ascii U _ (enumNamed_ascii enums name he)
  rw [GenerateGoStruct_eq, GenerateGoStruct_eq, h1, h2]

/-- C11: `buildAcronym` keeps exactly the upper-case letters of the name, in order (`UR` for
`UserRole`, `OS` for `OrderStatus`), and for every recorded enum name the text holds the
declaration of the enum of that name, then one constant line per value, in value order, of
the form tab, acronym, `_`, value, blank, enum name, ` = "`, value, `"` and a line break
(`UR_ADMIN` and `UR_MEMBER` for `UserRole` with the values `ADMIN`, `MEMBER`). -/
theorem buildAcronym_and_enum_constants (U : UnicodeTables) (model : Model) (enums : List Enum) :
    (∀ name : Str, buildAcronym U name = name.filter U.isUpper) ∧
    buildAcronym U "UserRole".toList = "UR".toList ∧
    buildAcronym U "OrderStatus".toList = "OS".toList ∧
    GenerateGoStruct U model enums
      = "package models\n\n".toList ++ ("type ".toList ++ model.Name ++ " struct \x7b\n".toList)
        ++ concatAll (model.Fields.map (specFieldLine U enums))
        ++ "\x7d\n\n".toList
        ++ concatAll ((referencedEnumNames enums model.Fields).map (fun name =>
            "type ".toList ++ (enumNamed enums name).Name ++ " string\n\n".toList
              ++ "const (\n".toList
              ++ concatAll ((enumNamed enums name).Values.map (fun v =>
                  "\t".toList ++ buildAcronym U (enumNamed enums name).Name ++ "_".toList ++ v
                    ++ " ".toList ++ (enumNamed enums name).Name ++ " = \"".toList ++ v
                    ++ "\"\n".toList))
              ++ ")\n".toList)) ∧
    (∀ name ∈ referencedEnumNames enums model.Fields,
      enumNamed enums name ∈ enums ∧ (enumNamed enums name).Name = name) ∧
    specEnumBlock U ⟨"UserRole".toList, ["ADMIN".toList, "MEMBER".toList]⟩
      = ("type UserRole string\n\nconst (\n\tUR_ADMIN UserRole = \"ADMIN\"\n"
          ++ "\tUR_MEMBER UserRole = \"MEMBER\"\n)\n").toList := by
  refine ⟨buildAcronym_eq_filter U, ?_, ?_, ?_, ?_, ?_⟩
  · rw [buildAcronym_ascii U _ (by decide)]; decide
  · rw [buildAcronym_ascii U _ (by decide)]; decide
  · rw [GenerateGoStruct_eq]
    congr 1
    congr 1
    apply List.map_congr_left
    intro name _
    rw [enumBlock_eq_spec]
    rfl
  · intro name hn
    apply enumNamed_mem
    simp only [referencedEnumNames, List.mem_map, List.mem_filter, Bool.and_eq_true] at hn
    obtain ⟨f, ⟨_, _, hany⟩, rfl⟩ := hn
    exact hany
  · rw [specEnumBlock_ascii U _ (by decide)]; decide

/-- C12: the text between the header and the closing brace is the concatenation, in the order
of `model.Fields`, of one line per field made of the capitalized name, the resolved type and
the two tags; for the fields `b`, `a`, `c` the lines come in the order `B`, `A`, `C`. -/
theorem GenerateGoStruct_field_order (U : UnicodeTables) (model : Model) (enums : List Enum) :
    GenerateGoStruct U model enums
      = "package models\n\n".toList ++ ("type ".toList ++ model.Name ++ " struct \x7b\n".toList)
        ++ concatAll (model.Fields.map (fun f =>
            "\t".toList ++ Title U f.Name ++ " ".toList ++ specFieldType enums f ++ " ".toList
              ++ ("\x60gorm:\"".toList
                ++ transformGormTag U { f with annotation_ := TrimSpace U f.annotation_ }
                ++ "\" json:\"".toList ++ f.Name ++ "\"\x60".toList)
              ++ "\n".toList))
        ++ "\x7d\n\n".toList
        ++ concatAll ((referencedEnumNames enums model.Fields).map
            (enumBlock U (buildEnumMap enums))) ∧
    GenerateGoStruct U bacModel []
      = ("package models\n\ntype T struct \x7b\n"
          ++ "\tB int \x60gorm:\"column:b\" json:\"b\"\x60\n"
          ++ "\tA string \x60gorm:\"column:a\" json:\"a\"\x60\n"
          ++ "\tC bool \x60gorm:\"column:c\" json:\"c\"\x60\n\x7d\n\n").toList := by
  constructor
  · exact GenerateGoStruct_eq U model enums
  · rw [GenerateGoStruct_ascii U bacModel [] (by decide) (by decide)]
    decide

/-- C13: the end-to-end schema parses to the single model `User` with the fields `id`, `name`,
`role` in this order and to the single enum `Role` with the values `ADMIN`, `MEMBER`; the
text generated for them declares `User` with the lines `Id string` (with the primaryKey tag),
`Name *string` and `Role Role`, then `type Role string` and the two constants `R_ADMIN` and
`R_MEMBER`. -/
theorem end_to_end_user_role (U : UnicodeTables) :
    ParseSchemaFile userRoleSchema = Except.ok ([userModel], roleEnums) ∧
    GenerateGoStruct U userModel roleEnums
      = ("package models\n\ntype User struct \x7b\n"
          ++ "\tId string \x60gorm:\"primaryKey;type:uuid;default:uuid_generate_v4()column:id\" json:\"id\"\x60\n"
          ++ "\tName *string \x60gorm:\"column:name\" json:\"name\"\x60\n"
          ++ "\tRole Role \x60gorm:\"column:role\" json:\"role\"\x60\n\x7d\n\n"
          ++ "type Role string\n\nconst (\n\tR_ADMIN Role = \"ADMIN\"\n"
          ++ "\tR_MEMBER Role = \"MEMBER\"\n)\n").toList := by
  constructor
  · have h1 : parseModels userRoleSchema = [userModel] := by decide
    have h2 : parseEnums userRoleSchema = roleEnums := by decide
    simp only [ParseSchemaFile, h1, h2]
  · rw [GenerateGoStruct_ascii U userModel roleEnums (by decide) (by decide)]
    decide

end PrismaGoStruct
